import Mathlib

/-!
# Verification of the availability interval-partition counter

Shallow embedding of `analytics/measure.py` (`CounterInterval`, `DeviceCounter`).

Modelling notes:

* Timestamps are integers (`ℤ`), matching the `int(...)` conversions in the
  source.  A raw input value is a `Ts`: either an integer, or a value whose
  conversion fails (`_ts2int` falls into its `except` branch and the inner
  `int(ts)` raises `ValueError`).
* `pandas.Interval` with `closed="both"` compares as the tuple
  `(left, right, closed)`; all intervals here are closed-both, so interval
  keys are pairs `(left, right)` ordered lexicographically (`klt`/`kle`).
* `CounterInterval.__init__` silently swaps reversed bounds (`mkIv`).
* The `SortedDict` of counts is an association list strictly sorted by `klt`.
  `bisect_right` on a strictly sorted key list equals the number of keys
  `≤` the probe (`bisectRight`), dict assignment is ordered insert with
  overwrite (`sdInsert`), `pop` of a set of present keys is `sdRemoveAll`.
* `DeviceCounter.count_event` first converts both bounds (raising before any
  mutation when a bound is unparseable), then walks the key list from the
  bisection index while `index < len(counts)` and (for a closed event)
  `interval.start < event_end`, accumulating `to_remove` / `to_add`, and
  finally applies removals, then sorted insertions (`countEventInt`).
* `DeviceCounter.count` resets the counter and folds the rows, with **no**
  exception handler: a `ValueError` aborts the whole batch (`count`).
* `average()` divides a numpy integer sum by `self.delta`; when the delta is
  zero this is numpy division producing `nan` (for a zero numerator) or `inf`
  (nonzero numerator) with a RuntimeWarning — no exception is raised.  The
  outcome type `AvgResult` has explicit constructors for these outcomes and
  for a hypothetical raised `DegenerateRangeError` (which the source never
  produces, and which the spec claims).
-/

namespace MDS

/-- Interval key: `(left, right)` of a closed `pandas.Interval`. -/
abbrev Iv := ℤ × ℤ

/-- One entry of the counts dictionary: interval key and its count. -/
abbrev Entry := Iv × ℕ

/-- `CounterInterval(start, end)`: swaps reversed bounds
(`if start > end: start, end = end, start`) and stores `(left, right)`. -/
def mkIv (a b : ℤ) : Iv := if a > b then (b, a) else (a, b)

/-- Lexicographic strict order on interval keys, the order `pandas.Interval`
uses for closed-both intervals (tuple comparison on `(left, right)`). -/
def klt (a b : Iv) : Bool := decide (a.1 < b.1) || (decide (a.1 = b.1) && decide (a.2 < b.2))

/-- Lexicographic non-strict order on interval keys. -/
def kle (a b : Iv) : Bool := decide (a.1 < b.1) || (decide (a.1 = b.1) && decide (a.2 ≤ b.2))

/-- `SortedDict.bisect_right(probe)`: on a strictly sorted key list this is
the number of keys `≤ probe`. -/
def bisectRight (l : List Entry) (probe : Iv) : ℕ := l.countP (fun it => kle it.1 probe)

/-- `SortedDict` assignment `d[k] = v`: ordered insert, overwriting an equal
key in place. -/
def sdInsert (k : Iv) (v : ℕ) : List Entry → List Entry
  | [] => [(k, v)]
  | e :: rest =>
    if klt k e.1 then (k, v) :: e :: rest
    else if k = e.1 then (k, v) :: rest
    else e :: sdInsert k v rest

/-- `for r in to_remove: d.pop(r)`: removals of present keys commute, so this
is a filter. -/
def sdRemoveAll (ks : List Iv) (l : List Entry) : List Entry :=
  l.filter (fun it => !ks.contains it.1)

/-- `for k in adds: d[k] = adds[k]` applied in list order. -/
def sdInsertAll (adds : List Entry) (l : List Entry) : List Entry :=
  adds.foldl (fun acc e => sdInsert e.1 e.2 acc) l

/-- The mutable state of a `DeviceCounter`: the window bounds `self._start`
and `self._end` (as converted integers), the counts dictionary, and the
telemetry fields `events`, `splits`, `counter`. -/
structure DeviceCounter where
  tstart : ℤ
  tend : ℤ
  counts : List Entry
  events : ℕ
  splits : ℕ
  counter : ℕ
deriving DecidableEq, Repr

/-- `DeviceCounter._reset`: counts becomes `{self.interval : 0}` where
`self.interval = CounterInterval(self._start, self._end)`, telemetry zeroed. -/
def DeviceCounter.reset (dc : DeviceCounter) : DeviceCounter :=
  { dc with counts := [(mkIv dc.tstart dc.tend, 0)], events := 0, splits := 0, counter := 0 }

/-- `DeviceCounter(start, end)` on integer inputs. -/
def mkCounter (a b : ℤ) : DeviceCounter :=
  DeviceCounter.reset { tstart := a, tend := b, counts := [], events := 0, splits := 0, counter := 0 }

/-- The Python expression `end or self._end`: `None` — and, by the
truthiness quirk, an *integer zero* end — is replaced by `self._end`. -/
def probeEnd (dc : DeviceCounter) : Option ℤ → ℤ
  | none => dc.tend
  | some e => if e = 0 then dc.tend else e

/-- `DeviceCounter._insertidx`: right-bisection against the synthetic interval
`CounterInterval(start, end or self._end)` minus one, clamped to 0. -/
def insertidx (dc : DeviceCounter) (s : ℤ) (eo : Option ℤ) : ℕ :=
  bisectRight dc.counts (mkIv s (probeEnd dc eo)) - 1

/-- Removals, additions and telemetry increments accumulated by the
`count_event` walk. -/
structure WalkOut where
  rem : List Iv
  add : List Entry
  spl : ℕ
  cnt : ℕ
deriving DecidableEq, Repr

/-- One loop iteration of `count_event` for a closed event
`[s, e]` against the sub-interval `it`: the four overlap branches. -/
def stepClosed (s e : ℤ) (it : Entry) : WalkOut :=
  let st := it.1.1
  let en := it.1.2
  let c := it.2
  if s ≤ st ∧ e ≥ en then
    ⟨[], [(mkIv st en, c + 1)], 0, 1⟩
  else if s ≤ st ∧ e > st ∧ e < en then
    ⟨[it.1], [(mkIv st e, c + 1), (mkIv e en, c)], 1, 1⟩
  else if s > st ∧ s < en ∧ e ≥ en then
    ⟨[it.1], [(mkIv st s, c), (mkIv s en, c + 1)], 1, 1⟩
  else if s > st ∧ e < en then
    ⟨[it.1], [(mkIv st s, c), (mkIv s e, c + 1), (mkIv e en, c)], 2, 1⟩
  else
    ⟨[], [], 0, 0⟩

/-- One loop iteration of `count_event` for an open event `[s, ∞)`. -/
def stepOpen (s : ℤ) (it : Entry) : WalkOut :=
  let st := it.1.1
  let en := it.1.2
  let c := it.2
  if s ≤ st then
    ⟨[], [(mkIv st en, c + 1)], 0, 1⟩
  else if s > st ∧ s ≤ en then
    ⟨[it.1], [(mkIv st s, c), (mkIv s en, c + 1)], 1, 1⟩
  else
    ⟨[], [], 0, 0⟩

/-- Dispatch on whether the event is closed or open. -/
def walkStep (s : ℤ) (eo : Option ℤ) (it : Entry) : WalkOut :=
  match eo with
  | none => stepOpen s it
  | some e => stepClosed s e it

/-- The while-loop condition
`index < len(counts) and (event_end is None or interval.start < event_end)`,
checked against the current sub-interval. -/
def contCond (eo : Option ℤ) (it : Entry) : Bool :=
  match eo with
  | none => true
  | some e => decide (it.1.1 < e)

/-- The `count_event` while-loop over the (unmodified) key list suffix,
stopping at the first sub-interval failing the condition. -/
def walk (s : ℤ) (eo : Option ℤ) : List Entry → WalkOut
  | [] => ⟨[], [], 0, 0⟩
  | it :: rest =>
    if contCond eo it then
      let r := walkStep s eo it
      let w := walk s eo rest
      ⟨r.rem ++ w.rem, r.add ++ w.add, r.spl + w.spl, r.cnt + w.cnt⟩
    else ⟨[], [], 0, 0⟩

/-- `count_event` after integer conversion of the bounds: walk from the
bisection index, then apply all removals and (sorted-dict) additions, then
increment `events`. -/
def countEventInt (dc : DeviceCounter) (s : ℤ) (eo : Option ℤ) : DeviceCounter :=
  let w := walk s eo (dc.counts.drop (insertidx dc s eo))
  let toAdd := sdInsertAll w.add []
  { dc with
    counts := sdInsertAll toAdd (sdRemoveAll w.rem dc.counts)
    splits := dc.splits + w.spl
    counter := dc.counter + w.cnt
    events := dc.events + 1 }

/-- A raw timestamp input: either convertible to an integer, or a value on
which `_ts2int` raises `ValueError` (the `int(ts)` inside its `except`). -/
inductive Ts where
  | int (n : ℤ)
  | bad
deriving DecidableEq, Repr

/-- Python exceptions relevant here.  The source only ever raises
`ValueError`; the spec's `InvalidEventError` and `DegenerateRangeError`
classes do not exist in the code. -/
inductive PyErr where
  | valueError
  | invalidEventError
deriving DecidableEq, Repr

/-- `DeviceCounter._ts2int`. -/
def ts2int : Ts → Except PyErr ℤ
  | .int n => .ok n
  | .bad => .error .valueError

/-- `DeviceCounter.count_event`: converts `event_start`, then `event_end`
(`None`/`NaT` stays open), raising before any mutation on a bad bound. -/
def countEvent (dc : DeviceCounter) (es : Ts) (ee : Option Ts) : Except PyErr DeviceCounter :=
  match ts2int es with
  | .error e => .error e
  | .ok s =>
    match ee with
    | none => .ok (countEventInt dc s none)
    | some t =>
      match ts2int t with
      | .error e => .error e
      | .ok e => .ok (countEventInt dc s (some e))

/-- Result of a batch fold: either all rows were counted, or an uncaught
exception aborted the loop, leaving the counter in the state reached so far. -/
inductive FoldResult where
  | ok (dc : DeviceCounter)
  | err (dc : DeviceCounter)
deriving DecidableEq, Repr

/-- The row loop of `DeviceCounter.count` (predicate `None`): there is no
`try`/`except`, so the first exception aborts the remaining rows. -/
def countFold : DeviceCounter → List (Ts × Option Ts) → FoldResult
  | dc, [] => .ok dc
  | dc, ev :: rest =>
    match countEvent dc ev.1 ev.2 with
    | .ok dc2 => countFold dc2 rest
    | .error _ => .err dc

/-- `DeviceCounter.count(data)`: reset, then fold all rows. -/
def count (dc : DeviceCounter) (data : List (Ts × Option Ts)) : FoldResult :=
  countFold dc.reset data

/-- Folding a list of already-converted integer events by repeated
`count_event` calls. -/
def foldEvents (dc : DeviceCounter) (evs : List (ℤ × Option ℤ)) : DeviceCounter :=
  evs.foldl (fun d ev => countEventInt d ev.1 ev.2) dc

/-- `DeviceCounter.partition()` rows: `(start, end, delta, count)`. -/
def partitionSnap (dc : DeviceCounter) : List (ℤ × ℤ × ℤ × ℕ) :=
  dc.counts.map (fun it => (it.1.1, it.1.2, it.1.2 - it.1.1, it.2))

/-- `DeviceCounter.dimension()`. -/
def dimension (dc : DeviceCounter) : ℕ := dc.counts.length

/-- The Riemann numerator of `average()`: `sum(count * delta)`. -/
def sigma (dc : DeviceCounter) : ℤ :=
  (dc.counts.map (fun it => (it.2 : ℤ) * (it.1.2 - it.1.1))).sum

/-- `self.delta`: the length of `self.interval` (after the constructor's
bound swap). -/
def delta (dc : DeviceCounter) : ℤ :=
  (mkIv dc.tstart dc.tend).2 - (mkIv dc.tstart dc.tend).1

/-- Possible outcomes of `average()`: a rational value, numpy `nan` or `inf`
from dividing by a zero delta, or a raised `DegenerateRangeError` (present in
the outcome vocabulary so the spec's claim is statable; the source never
produces it). -/
inductive AvgResult where
  | val (q : ℚ)
  | nan
  | inf
  | raisedDegenerateRangeError
deriving DecidableEq, Repr

/-- `DeviceCounter.average()`: `sigma / self.delta`, an unguarded numpy
division (0/0 → nan, x/0 → inf, both mere warnings). -/
def average (dc : DeviceCounter) : AvgResult :=
  if delta dc = 0 then
    (if sigma dc = 0 then .nan else .inf)
  else .val ((sigma dc : ℚ) / (delta dc : ℚ))

end MDS

namespace MDS

/-! ## Specification-side predicates -/

/-- `chainFrom lo hi l`: the intervals of `l` form an endpoint-to-endpoint
chain starting at `lo` and ending at `hi` (each sub-interval non-reversed).
The empty chain is allowed only for a degenerate span. -/
def chainFrom : ℤ → ℤ → List Entry → Prop
  | lo, hi, [] => lo = hi
  | lo, hi, it :: rest => it.1.1 = lo ∧ lo ≤ it.1.2 ∧ chainFrom it.1.2 hi rest

/-- Two closed intervals are disjoint except possibly at shared endpoints. -/
def ExceptEndpoints (a b : Iv) : Prop :=
  ∀ t : ℤ, a.1 ≤ t → t ≤ a.2 → b.1 ≤ t → t ≤ b.2 →
    ((t = a.1 ∨ t = a.2) ∧ (t = b.1 ∨ t = b.2))

/-- The partition property exactly as the spec states it: pairwise disjoint
except at shared endpoints, ordered by start, and the union of the closed
intervals is exactly `[lo, hi]`. -/
def ClaimPartition (lo hi : ℤ) (l : List Entry) : Prop :=
  l.Pairwise (fun a b => ExceptEndpoints a.1 b.1) ∧
  l.Pairwise (fun a b => a.1.1 ≤ b.1.1) ∧
  (∀ t : ℤ, (∃ it ∈ l, it.1.1 ≤ t ∧ t ≤ it.1.2) ↔ (lo ≤ t ∧ t ≤ hi))

/-- Internal well-formedness of a counter state: non-reversed window, and the
counts dictionary is a nonempty endpoint-to-endpoint chain covering
`[tstart, tend]`, strictly sorted in the dictionary order. -/
def Inv (dc : DeviceCounter) : Prop :=
  dc.tstart ≤ dc.tend ∧
  dc.counts ≠ [] ∧
  chainFrom dc.tstart dc.tend dc.counts ∧
  dc.counts.Pairwise (fun a b => klt a.1 b.1 = true)

/-- A chronologically valid event: a closed event has `start ≤ end`. -/
def validEv (s : ℤ) : Option ℤ → Prop
  | none => True
  | some e => s ≤ e

/-- Occupancy at an instant: the count of the first listed sub-interval
covering `t` (0 when none covers it). -/
def occAt (l : List Entry) (t : ℤ) : ℕ :=
  match l.find? (fun it => decide (it.1.1 ≤ t) && decide (t ≤ it.1.2)) with
  | some it => it.2
  | none => 0

/-- The width-weighted total count of a partition (the Riemann sum). -/
def wsum (l : List Entry) : ℤ :=
  (l.map (fun it => (it.2 : ℤ) * (it.1.2 - it.1.1))).sum

/-- Width of the intersection of closed intervals `[a,b]` and `[c,d]`. -/
def ovl (a b c d : ℤ) : ℤ := max 0 (min b d - max a c)

/-- Strictly sorted (in dictionary order) list of entries. -/
def SortedE (l : List Entry) : Prop := l.Pairwise (fun a b => klt a.1 b.1 = true)

/-- Concatenation of per-entry entry lists. -/
def cmap (f : Entry → List Entry) : List Entry → List Entry
  | [] => []
  | a :: t => f a ++ cmap f t

/-- Concatenation of per-entry key lists. -/
def cmapK (f : Entry → List Iv) : List Entry → List Iv
  | [] => []
  | a :: t => f a ++ cmapK f t

/-- The list of entries replacing one sub-interval after a closed-event
iteration (the untouched entry itself when no branch fires).  This is the
specification-level reading of `stepClosed`, with the interval keys written
plainly (no `mkIv` swap). -/
def replClosed (s e : ℤ) (it : Entry) : List Entry :=
  let st := it.1.1
  let en := it.1.2
  let c := it.2
  if s ≤ st ∧ e ≥ en then [((st, en), c + 1)]
  else if s ≤ st ∧ e > st ∧ e < en then [((st, e), c + 1), ((e, en), c)]
  else if s > st ∧ s < en ∧ e ≥ en then [((st, s), c), ((s, en), c + 1)]
  else if s > st ∧ e < en then [((st, s), c), ((s, e), c + 1), ((e, en), c)]
  else [it]

/-- Replacement list for one open-event iteration. -/
def replOpen (s : ℤ) (it : Entry) : List Entry :=
  let st := it.1.1
  let en := it.1.2
  let c := it.2
  if s ≤ st then [((st, en), c + 1)]
  else if s > st ∧ s ≤ en then [((st, s), c), ((s, en), c + 1)]
  else [it]

/-- Replacement list for an iteration of either event kind. -/
def replOf (s : ℤ) (eo : Option ℤ) (it : Entry) : List Entry :=
  match eo with
  | none => replOpen s it
  | some e => replClosed s e it

/-- The part of a walked sub-interval that survives the removal phase of a
closed-event call: the entry itself unless its own iteration scheduled it for
removal (the three splitting branches). -/
def keptClosed (s e : ℤ) (it : Entry) : List Entry :=
  if s ≤ it.1.1 ∧ e ≥ it.1.2 then [it]
  else if s ≤ it.1.1 ∧ e > it.1.1 ∧ e < it.1.2 then []
  else if s > it.1.1 ∧ s < it.1.2 ∧ e ≥ it.1.2 then []
  else if s > it.1.1 ∧ e < it.1.2 then []
  else [it]

/-- Surviving part of a walked sub-interval for an open-event call. -/
def keptOpen (s : ℤ) (it : Entry) : List Entry :=
  if s ≤ it.1.1 then [it]
  else if s > it.1.1 ∧ s ≤ it.1.2 then []
  else [it]

/-- Surviving part of a walked sub-interval for either event kind. -/
def keptOf (s : ℤ) (eo : Option ℤ) (it : Entry) : List Entry :=
  match eo with
  | none => keptOpen s it
  | some e => keptClosed s e it

/-- The closed-form result of one `count_event` call on a well-formed
counter: the prefix before the bisection index, the concatenated per-item
replacements over the walked region, and the suffix after the stop. -/
def replList (dc : DeviceCounter) (s : ℤ) (eo : Option ℤ) : List Entry :=
  let idx := insertidx dc s eo
  let q := dc.counts.drop idx
  dc.counts.take idx ++ cmap (replOf s eo) (q.takeWhile (contCond eo)) ++
    q.dropWhile (contCond eo)

end MDS

namespace MDS

/-! ## Concrete scenario theorems and counterexamples -/

/-- C3: Overlapping-splits scenario: on the window `[0,100]`, folding the
closed event `[0,50]` and then `[25,75]` yields exactly the partition
`[(0,25,25,1), (25,50,25,2), (50,75,25,1), (75,100,25,0)]`, and `average()`
returns `1`. -/
theorem C3_overlapping_splits :
    partitionSnap (foldEvents (mkCounter 0 100) [(0, some 50), (25, some 75)]) =
      [(0, 25, 25, 1), (25, 50, 25, 2), (50, 75, 25, 1), (75, 100, 25, 0)] ∧
    average (foldEvents (mkCounter 0 100) [(0, some 50), (25, some 75)]) = .val 1 := by
  constructor
  · decide
  · rw [average]
    norm_num [foldEvents, countEventInt, insertidx, bisectRight, walk, walkStep, stepClosed,
      contCond, sdInsertAll, sdInsert, sdRemoveAll, mkIv, kle, klt, mkCounter,
      DeviceCounter.reset, sigma, delta]

/-- C7: Open-ended event scenario: on the window `[0,100]`, folding the open
event `(80, None)` yields exactly the partition `[(0,80,80,0), (80,100,20,1)]`
and `average()` returns `1/5` (= 0.2). -/
theorem C7_open_event :
    partitionSnap (countEventInt (mkCounter 0 100) 80 none) =
      [(0, 80, 80, 0), (80, 100, 20, 1)] ∧
    average (countEventInt (mkCounter 0 100) 80 none) = .val (1 / 5) := by
  constructor
  · decide
  · rw [average]
    norm_num [countEventInt, insertidx, bisectRight, walk, walkStep, stepOpen,
      contCond, sdInsertAll, sdInsert, sdRemoveAll, mkIv, kle, klt, mkCounter,
      DeviceCounter.reset, sigma, delta]

/-- C4 counterexample: the claim says a reversed closed event
(`event_start > event_end`) is always a no-op on the partition; but on a
fresh counter over `[0,100]` the reversed event `(50, 30)` takes the
strictly-inside branch (its swapped `CounterInterval` construction included)
and changes the partition. -/
theorem C4_cex :
    (countEventInt (mkCounter 0 100) 50 (some 30)).counts ≠ (mkCounter 0 100).counts := by
  decide

/-- C4 amended: a reversed closed numeric event raises no error, but it is
not in general a no-op: the strictly-inside branch can fire and modify the
partition (e.g. `(50,30)` on a fresh `[0,100]` counter yields the overlapping
entries `[(0,50):0, (30,50):1, (30,100):0]`). -/
theorem C4_amended :
    (∀ (dc : DeviceCounter) (s e : ℤ),
      countEvent dc (.int s) (some (.int e)) = .ok (countEventInt dc s (some e))) ∧
    (countEventInt (mkCounter 0 100) 50 (some 30)).counts =
      [((0, 50), 0), ((30, 50), 1), ((30, 100), 0)] := by
  exact ⟨fun dc s e => rfl, by decide⟩

/-- C6 counterexample: the claim says a malformed event fails with
`InvalidEventError` and the batch fold continues with the next event.  In
the code the conversion raises a plain `ValueError` and `count` has no
exception handler: on the batch `[(bad, 5), (10, 20)]` over `[0,100]` the
fold aborts at the first row, the second (well-formed) event is never
counted, and the resulting partition is still the initial single interval. -/
theorem C6_cex :
    count (mkCounter 0 100) [(Ts.bad, some (Ts.int 5)), (Ts.int 10, some (Ts.int 20))] =
      .err (mkCounter 0 100) ∧
    countEvent (mkCounter 0 100) Ts.bad (some (Ts.int 5)) = .error .valueError ∧
    PyErr.valueError ≠ PyErr.invalidEventError := by
  exact ⟨by decide, rfl, by decide⟩

/-- C6 amended: an event with an unparseable bound makes `count_event` raise
`ValueError` before any mutation (atomic rejection), and a batch fold does
not continue past it: it aborts at the first malformed event, leaving the
counter in the freshly reset state when the malformed event comes first. -/
theorem C6_amended :
    (∀ (dc : DeviceCounter) (ee : Option Ts),
      countEvent dc Ts.bad ee = .error .valueError) ∧
    (∀ (dc : DeviceCounter) (s : ℤ),
      countEvent dc (.int s) (some .bad) = .error .valueError) ∧
    (∀ (dc : DeviceCounter) (ee : Option Ts) (rest : List (Ts × Option Ts)),
      count dc ((Ts.bad, ee) :: rest) = .err dc.reset) := by
  refine ⟨fun dc ee => rfl, fun dc s => rfl, fun dc ee rest => rfl⟩

/-- C9 counterexample: the claim says every closed event with
`event_start ≥ T1` leaves the partition, counts and telemetry unchanged; but
the reversed event `(105, 3)` on a fresh `[0,100]` counter (with
`105 ≥ 100`) rewrites the partition. -/
theorem C9_cex :
    (105 : ℤ) ≥ 100 ∧
    (countEventInt (mkCounter 0 100) 105 (some 3)).counts ≠ (mkCounter 0 100).counts := by
  decide

/-- C1 counterexample: the claim quantifies over *every* finite sequence of
`count_event` calls; folding the single reversed event `(50, 30)` into a
counter over `[0,100]` produces a partition whose intervals `(0,50)` and
`(30,50)` overlap at the interior point `t = 40`, so the partition property
(disjoint except at shared endpoints) fails. -/
theorem C1_cex :
    ¬ ClaimPartition 0 100 (foldEvents (mkCounter 0 100) [(50, some 30)]).counts := by
  have hc : (foldEvents (mkCounter 0 100) [(50, some 30)]).counts =
      [((0, 50), 0), ((30, 50), 1), ((30, 100), 0)] := by decide
  rw [hc]
  rintro ⟨hdisj, -, -⟩
  rw [List.pairwise_cons] at hdisj
  have h40 := hdisj.1 ((30, 50), 1) (by simp) 40 (by norm_num) (by norm_num)
    (by norm_num) (by norm_num)
  rcases h40.1 with h | h <;> norm_num at h

/-- C8 counterexample: the claim quantifies over *every* `count_event` call;
after the valid event `(10,20)` on a `[0,20]` counter, the reversed event
`(15, 5)` makes the occupancy at instant `t = 12` drop from 1 to 0. -/
theorem C8_cex :
    occAt (countEventInt (countEventInt (mkCounter 0 20) 10 (some 20)) 15 (some 5)).counts 12 <
      occAt (countEventInt (mkCounter 0 20) 10 (some 20)).counts 12 := by
  decide

/-- C5 counterexample: the claim says `average()` on a counter constructed
with `T0 = T1` fails with an explicitly guarded `DegenerateRangeError`; in
the code the division is unguarded numpy division and silently yields `nan`
(0/0) — no such error is raised. -/
theorem C5_cex :
    average (mkCounter 50 50) = AvgResult.nan ∧
    average (mkCounter 50 50) ≠ AvgResult.raisedDegenerateRangeError := by
  decide

end MDS

namespace MDS

/-! ## Order toolkit -/

theorem klt_iff (a b : Iv) : klt a b = true ↔ (a.1 < b.1 ∨ (a.1 = b.1 ∧ a.2 < b.2)) := by
  simp [klt]

theorem kle_iff (a b : Iv) : kle a b = true ↔ (a.1 < b.1 ∨ (a.1 = b.1 ∧ a.2 ≤ b.2)) := by
  simp [kle]

theorem klt_trans {a b c : Iv} (h1 : klt a b = true) (h2 : klt b c = true) : klt a c = true := by
  simp only [klt_iff] at *
  omega

theorem klt_irrefl (a : Iv) : klt a a = false := by
  simp [klt]

theorem klt_asymm {a b : Iv} (h1 : klt a b = true) (h2 : klt b a = true) : False := by
  simp only [klt_iff] at *
  omega

theorem klt_of_not {a b : Iv} (h1 : ¬ klt a b = true) (h2 : a ≠ b) : klt b a = true := by
  simp only [klt_iff] at *
  rcases a with ⟨a1, a2⟩
  rcases b with ⟨b1, b2⟩
  simp only [Prod.mk.injEq, ne_eq, not_and] at h2
  by_cases hb : b1 = a1
  · subst hb
    right
    exact ⟨rfl, by omega⟩
  · left
    omega

theorem klt_ne {a b : Iv} (h : klt a b = true) : a ≠ b := by
  rintro rfl
  simp [klt_irrefl] at h

theorem klt_of_klt_of_kle {a b c : Iv} (h1 : klt a b = true) (h2 : kle b c = true) :
    klt a c = true := by
  simp only [klt_iff, kle_iff] at *
  omega

theorem klt_of_kle_of_klt {a b c : Iv} (h1 : kle a b = true) (h2 : klt b c = true) :
    klt a c = true := by
  simp only [klt_iff, kle_iff] at *
  omega

theorem klt_of_not_kle {a b : Iv} (h : ¬ kle a b = true) : klt b a = true := by
  simp only [klt_iff, kle_iff] at *
  omega

/-! ## Sorted-dictionary toolkit -/

theorem sdInsertAll_nil (l : List Entry) : sdInsertAll [] l = l := rfl

theorem sdInsertAll_cons (e : Entry) (adds l : List Entry) :
    sdInsertAll (e :: adds) l = sdInsertAll adds (sdInsert e.1 e.2 l) := rfl

theorem sdInsertAll_append (A B l : List Entry) :
    sdInsertAll (A ++ B) l = sdInsertAll B (sdInsertAll A l) := by
  simp [sdInsertAll, List.foldl_append]

theorem sdInsert_append_right (k : Iv) (v : ℕ) (A B : List Entry)
    (h : ∀ b ∈ B, klt k b.1 = true) : sdInsert k v (A ++ B) = sdInsert k v A ++ B := by
  induction A with
  | nil =>
    cases B with
    | nil => rfl
    | cons b t => simp [sdInsert, h b (by simp)]
  | cons a t ih =>
    simp only [List.cons_append, sdInsert]
    split_ifs <;> simp [ih]

theorem sdInsert_append_left (k : Iv) (v : ℕ) (A B : List Entry)
    (h : ∀ a ∈ A, klt a.1 k = true) : sdInsert k v (A ++ B) = A ++ sdInsert k v B := by
  induction A with
  | nil => rfl
  | cons a t ih =>
    have ha : klt a.1 k = true := h a (by simp)
    have h1 : ¬ klt k a.1 = true := fun hc => klt_asymm ha hc
    have h2 : ¬ k = a.1 := by
      rintro rfl
      simp [klt_irrefl] at ha
    have h3 := ih (fun x hx => h x (by simp [hx]))
    calc sdInsert k v ((a :: t) ++ B) = a :: sdInsert k v (t ++ B) := by
          simp only [List.cons_append, sdInsert]
          rw [if_neg h1, if_neg h2]
          rfl
      _ = a :: (t ++ sdInsert k v B) := by rw [h3]
      _ = (a :: t) ++ sdInsert k v B := rfl

theorem sdInsertAll_append_left (adds X B : List Entry)
    (h : ∀ e ∈ adds, ∀ x ∈ X, klt x.1 e.1 = true) :
    sdInsertAll adds (X ++ B) = X ++ sdInsertAll adds B := by
  induction adds generalizing B with
  | nil => rfl
  | cons e t ih =>
    rw [sdInsertAll_cons, sdInsert_append_left e.1 e.2 X B
      (fun x hx => h e (by simp) x hx), ih _ (fun e2 he2 x hx => h e2 (by simp [he2]) x hx),
      sdInsertAll_cons]

theorem sdInsertAll_append_right (adds A Y : List Entry)
    (h : ∀ e ∈ adds, ∀ y ∈ Y, klt e.1 y.1 = true) :
    sdInsertAll adds (A ++ Y) = sdInsertAll adds A ++ Y := by
  induction adds generalizing A with
  | nil => rfl
  | cons e t ih =>
    rw [sdInsertAll_cons, sdInsert_append_right e.1 e.2 A Y
      (fun y hy => h e (by simp) y hy), ih _ (fun e2 he2 y hy => h e2 (by simp [he2]) y hy),
      sdInsertAll_cons]

theorem sdInsertAll_sorted_nil (A : List Entry) (h : SortedE A) : sdInsertAll A [] = A := by
  induction A with
  | nil => rfl
  | cons e t ih =>
    rw [SortedE, List.pairwise_cons] at h
    have : sdInsert e.1 e.2 ([] : List Entry) = [e] := rfl
    rw [sdInsertAll_cons, this]
    have := sdInsertAll_append_left t [e] []
      (fun e2 he2 x hx => by
        rcases List.mem_singleton.mp hx with rfl
        exact h.1 e2 he2)
    simp only [List.append_nil] at this
    rw [this, ih h.2]
    simp

theorem mem_sdInsert {x : Entry} {k : Iv} {v : ℕ} {l : List Entry}
    (h : x ∈ sdInsert k v l) : x = (k, v) ∨ x ∈ l := by
  induction l with
  | nil => simpa [sdInsert] using h
  | cons e t ih =>
    simp only [sdInsert] at h
    split_ifs at h with h1 h2
    · rcases List.mem_cons.mp h with h | h
      · exact Or.inl h
      · exact Or.inr h
    · rcases List.mem_cons.mp h with h | h
      · exact Or.inl h
      · exact Or.inr (List.mem_cons_of_mem _ h)
    · rcases List.mem_cons.mp h with h | h
      · exact Or.inr (h ▸ List.mem_cons_self _ _)
      · rcases ih h with h | h
        · exact Or.inl h
        · exact Or.inr (List.mem_cons_of_mem _ h)

theorem sorted_sdInsert {k : Iv} {v : ℕ} {l : List Entry} (h : SortedE l) :
    SortedE (sdInsert k v l) := by
  induction l with
  | nil => simp [sdInsert, SortedE]
  | cons e t ih =>
    rw [SortedE, List.pairwise_cons] at h
    rw [sdInsert]
    split_ifs with h1 h2
    · rw [SortedE, List.pairwise_cons]
      refine ⟨?_, List.Pairwise.cons h.1 h.2⟩
      intro x hx
      rcases List.mem_cons.mp hx with rfl | hx
      · exact h1
      · exact klt_trans h1 (h.1 x hx)
    · subst h2
      rw [SortedE, List.pairwise_cons]
      exact ⟨h.1, h.2⟩
    · rw [SortedE, List.pairwise_cons]
      refine ⟨?_, ih h.2⟩
      intro x hx
      rcases mem_sdInsert hx with rfl | hx
      · exact klt_of_not h1 h2
      · exact h.1 x hx

theorem sorted_sdInsertAll {adds l : List Entry} (h : SortedE l) :
    SortedE (sdInsertAll adds l) := by
  induction adds generalizing l with
  | nil => exact h
  | cons e t ih => exact ih (sorted_sdInsert h)

theorem sorted_sdRemoveAll {ks : List Iv} {l : List Entry} (h : SortedE l) :
    SortedE (sdRemoveAll ks l) := by
  exact List.Pairwise.filter _ h

/-- Every counter state produced by `countEventInt` keeps the counts list
strictly sorted. -/
theorem sorted_countEventInt (dc : DeviceCounter) (s : ℤ) (eo : Option ℤ)
    (h : SortedE dc.counts) : SortedE (countEventInt dc s eo).counts := by
  exact sorted_sdInsertAll (sorted_sdRemoveAll h)

/-! ## Chain toolkit -/

theorem chainFrom_le {l : List Entry} : ∀ {lo hi : ℤ}, chainFrom lo hi l → lo ≤ hi := by
  induction l with
  | nil => intro lo hi h; exact le_of_eq h
  | cons it t ih =>
    intro lo hi h
    rcases h with ⟨-, h2, h3⟩
    exact le_trans h2 (ih h3)

theorem chainFrom_bounds {l : List Entry} :
    ∀ {lo hi : ℤ}, chainFrom lo hi l →
      ∀ it ∈ l, lo ≤ it.1.1 ∧ it.1.1 ≤ it.1.2 ∧ it.1.2 ≤ hi := by
  induction l with
  | nil => intro lo hi _ it hit; simp at hit
  | cons a t ih =>
    intro lo hi h it hit
    rcases h with ⟨h1, h2, h3⟩
    rcases List.mem_cons.mp hit with rfl | hit
    · exact ⟨le_of_eq h1.symm, by omega, chainFrom_le h3⟩
    · have := ih h3 it hit
      omega

theorem chainFrom_append_of {A B : List Entry} {lo mid hi : ℤ}
    (hA : chainFrom lo mid A) (hB : chainFrom mid hi B) : chainFrom lo hi (A ++ B) := by
  induction A generalizing lo with
  | nil =>
    have h0 : lo = mid := hA
    subst h0
    exact hB
  | cons a t ih =>
    rcases hA with ⟨h1, h2, h3⟩
    exact ⟨h1, h2, ih h3⟩

theorem chainFrom_append_split {A B : List Entry} :
    ∀ {lo hi : ℤ}, chainFrom lo hi (A ++ B) →
      ∃ mid, chainFrom lo mid A ∧ chainFrom mid hi B := by
  induction A with
  | nil => intro lo hi h; exact ⟨lo, rfl, h⟩
  | cons a t ih =>
    intro lo hi h
    rcases h with ⟨h1, h2, h3⟩
    rcases ih h3 with ⟨mid, hm1, hm2⟩
    exact ⟨mid, ⟨h1, h2, hm1⟩, hm2⟩

theorem chainFrom_pairwise {l : List Entry} :
    ∀ {lo hi : ℤ}, chainFrom lo hi l → l.Pairwise (fun a b => a.1.2 ≤ b.1.1) := by
  induction l with
  | nil => intro _ _ _; exact List.Pairwise.nil
  | cons a t ih =>
    intro lo hi h
    rcases h with ⟨-, -, h3⟩
    refine List.Pairwise.cons ?_ (ih h3)
    intro b hb
    exact (chainFrom_bounds h3 b hb).1

theorem chainFrom_cover {l : List Entry} :
    ∀ {lo hi : ℤ}, chainFrom lo hi l → l ≠ [] →
      ∀ t, lo ≤ t → t ≤ hi → ∃ it ∈ l, it.1.1 ≤ t ∧ t ≤ it.1.2 := by
  induction l with
  | nil => intro _ _ _ h; exact absurd rfl h
  | cons a tl ih =>
    intro lo hi h _ t ht1 ht2
    rcases h with ⟨h1, h2, h3⟩
    by_cases hc : t ≤ a.1.2
    · exact ⟨a, by simp, by omega, hc⟩
    · cases tl with
      | nil =>
        rw [chainFrom] at h3
        omega
      | cons b tl2 =>
        rcases ih h3 (by simp) t (by omega) ht2 with ⟨it, hmem, hcov⟩
        exact ⟨it, by simp [hmem], hcov⟩

end MDS

namespace MDS

/-! ## mkIv toolkit -/

theorem mkIv_of_le {a b : ℤ} (h : a ≤ b) : mkIv a b = (a, b) := by
  rw [mkIv, if_neg (by omega)]

theorem mkIv_fst_le (a b : ℤ) : (mkIv a b).1 ≤ a := by
  rw [mkIv]
  split_ifs with h
  · simp
    omega
  · simp

/-! ## Per-item facts about the replacement lists -/

theorem repl_item_facts {s : ℤ} {eo : Option ℤ} {it : Entry} (hk : it.1.1 ≤ it.1.2)
    (hv : validEv s eo) :
    chainFrom it.1.1 it.1.2 (replOf s eo it) ∧
    SortedE (replOf s eo it) ∧
    replOf s eo it ≠ [] ∧
    (∀ k2 ∈ replOf s eo it, it.2 ≤ k2.2) ∧
    (∀ k2 ∈ replOf s eo it, k2.1.1 = k2.1.2 →
      (k2.1 = it.1 ∧ it.1.1 = it.1.2) ∨ (it.1.1 < k2.1.1 ∧ k2.1.2 < it.1.2) ∨
      (eo = none ∧ it.1.1 < k2.1.1 ∧ k2.1.2 = it.1.2 ∧ k2.1.1 = s)) := by
  obtain ⟨⟨st, en⟩, c⟩ := it
  simp only at hk
  rcases eo with _ | e
  · simp only [replOf, replOpen]
    split_ifs with h1 h2
    · refine ⟨⟨rfl, hk, rfl⟩, by simp [SortedE], by simp, ?_, ?_⟩ <;>
        simp [List.forall_mem_cons, Prod.ext_iff] <;> omega
    · refine ⟨by simp [chainFrom]; omega, by simp [SortedE, klt_iff]; omega, by simp,
        ?_, ?_⟩ <;> simp [List.forall_mem_cons, Prod.ext_iff] <;> omega
    · refine ⟨⟨rfl, hk, rfl⟩, by simp [SortedE], by simp, ?_, ?_⟩ <;>
        simp [List.forall_mem_cons, Prod.ext_iff] <;> omega
  · have hse : s ≤ e := hv
    simp only [replOf, replClosed]
    split_ifs with h1 h2 h3 h4
    · refine ⟨⟨rfl, hk, rfl⟩, by simp [SortedE], by simp, ?_, ?_⟩ <;>
        simp [List.forall_mem_cons, Prod.ext_iff] <;> omega
    · refine ⟨by simp [chainFrom]; omega, by simp [SortedE, klt_iff]; omega, by simp,
        ?_, ?_⟩ <;> simp [List.forall_mem_cons, Prod.ext_iff] <;> omega
    · refine ⟨by simp [chainFrom]; omega, by simp [SortedE, klt_iff]; omega, by simp,
        ?_, ?_⟩ <;> simp [List.forall_mem_cons, Prod.ext_iff] <;> omega
    · refine ⟨by simp [chainFrom]; omega, by simp [SortedE, klt_iff]; omega, by simp,
        ?_, ?_⟩ <;> simp [List.forall_mem_cons, Prod.ext_iff] <;> omega
    · refine ⟨⟨rfl, hk, rfl⟩, by simp [SortedE], by simp, ?_, ?_⟩ <;>
        simp [List.forall_mem_cons, Prod.ext_iff] <;> omega

theorem repl_chain {s : ℤ} {eo : Option ℤ} {it : Entry} (hk : it.1.1 ≤ it.1.2)
    (hv : validEv s eo) : chainFrom it.1.1 it.1.2 (replOf s eo it) :=
  (repl_item_facts hk hv).1

theorem repl_sorted {s : ℤ} {eo : Option ℤ} {it : Entry} (hk : it.1.1 ≤ it.1.2)
    (hv : validEv s eo) : SortedE (replOf s eo it) :=
  (repl_item_facts hk hv).2.1

theorem repl_ne_nil {s : ℤ} {eo : Option ℤ} {it : Entry} (hk : it.1.1 ≤ it.1.2)
    (hv : validEv s eo) : replOf s eo it ≠ [] :=
  (repl_item_facts hk hv).2.2.1

theorem repl_counts_ge {s : ℤ} {eo : Option ℤ} {it : Entry} (hk : it.1.1 ≤ it.1.2)
    (hv : validEv s eo) : ∀ k2 ∈ replOf s eo it, it.2 ≤ k2.2 :=
  (repl_item_facts hk hv).2.2.2.1

theorem repl_deg {s : ℤ} {eo : Option ℤ} {it : Entry} (hk : it.1.1 ≤ it.1.2)
    (hv : validEv s eo) :
    ∀ k2 ∈ replOf s eo it, k2.1.1 = k2.1.2 →
      (k2.1 = it.1 ∧ it.1.1 = it.1.2) ∨ (it.1.1 < k2.1.1 ∧ k2.1.2 < it.1.2) ∨
      (eo = none ∧ it.1.1 < k2.1.1 ∧ k2.1.2 = it.1.2 ∧ k2.1.1 = s) :=
  (repl_item_facts hk hv).2.2.2.2

theorem repl_bounds {s : ℤ} {eo : Option ℤ} {it : Entry} (hk : it.1.1 ≤ it.1.2)
    (hv : validEv s eo) :
    ∀ k2 ∈ replOf s eo it, it.1.1 ≤ k2.1.1 ∧ k2.1.1 ≤ k2.1.2 ∧ k2.1.2 ≤ it.1.2 :=
  fun k2 hk2 => chainFrom_bounds (repl_chain hk hv) k2 hk2

/-- The additions emitted for one walked sub-interval are either exactly its
replacement list (the four firing branches) or empty (no branch fired). -/
theorem step_add_eq {s : ℤ} {eo : Option ℤ} {it : Entry} (hk : it.1.1 ≤ it.1.2)
    (hv : validEv s eo) :
    (walkStep s eo it).add = replOf s eo it ∨ (walkStep s eo it).add = [] := by
  obtain ⟨⟨st, en⟩, c⟩ := it
  simp only at hk
  rcases eo with _ | e
  · simp only [walkStep, stepOpen, replOf, replOpen]
    split_ifs with h1 h2
    · exact Or.inl (by rw [mkIv_of_le hk])
    · exact Or.inl (by rw [mkIv_of_le (by omega : st ≤ s), mkIv_of_le (by omega : s ≤ en)])
    · exact Or.inr rfl
  · have hse : s ≤ e := hv
    simp only [walkStep, stepClosed, replOf, replClosed]
    split_ifs with h1 h2 h3 h4
    · exact Or.inl (by rw [mkIv_of_le hk])
    · exact Or.inl (by rw [mkIv_of_le (by omega : st ≤ e), mkIv_of_le (by omega : e ≤ en)])
    · exact Or.inl (by rw [mkIv_of_le (by omega : st ≤ s), mkIv_of_le (by omega : s ≤ en)])
    · exact Or.inl (by rw [mkIv_of_le (by omega : st ≤ s), mkIv_of_le hse,
        mkIv_of_le (by omega : e ≤ en)])
    · exact Or.inr rfl

/-- Membership transfer from the emitted additions into the replacement list. -/
theorem step_add_mem {s : ℤ} {eo : Option ℤ} {it : Entry} (hk : it.1.1 ≤ it.1.2)
    (hv : validEv s eo) :
    ∀ k2 ∈ (walkStep s eo it).add, k2 ∈ replOf s eo it := by
  intro k2 hk2
  rcases step_add_eq hk hv with h | h
  · rwa [h] at hk2
  · rw [h] at hk2
    simp at hk2

/-- The removal scheduled for one walked sub-interval determines its kept
part: either nothing is removed and the entry survives, or its own key is
removed and nothing survives. -/
theorem step_rem_kept (s : ℤ) (eo : Option ℤ) (it : Entry) :
    ((walkStep s eo it).rem = [] ∧ keptOf s eo it = [it]) ∨
    ((walkStep s eo it).rem = [it.1] ∧ keptOf s eo it = []) := by
  obtain ⟨⟨st, en⟩, c⟩ := it
  rcases eo with _ | e
  · simp only [walkStep, stepOpen, keptOf, keptOpen]
    split_ifs <;> simp
  · simp only [walkStep, stepClosed, keptOf, keptClosed]
    split_ifs <;> simp

/-- Applying one walked sub-interval's additions to its kept part yields its
replacement list. -/
theorem step_compute {s : ℤ} {eo : Option ℤ} {it : Entry} (hk : it.1.1 ≤ it.1.2)
    (hv : validEv s eo) :
    sdInsertAll (walkStep s eo it).add (keptOf s eo it) = replOf s eo it := by
  obtain ⟨⟨st, en⟩, c⟩ := it
  simp only at hk
  rcases eo with _ | e
  · simp only [walkStep, stepOpen, replOf, replOpen, keptOf, keptOpen]
    split_ifs with h1 h2
    · rw [mkIv_of_le hk]
      simp [sdInsertAll, sdInsert, klt_irrefl]
    · rw [mkIv_of_le (by omega : st ≤ s), mkIv_of_le (by omega : s ≤ en)]
      exact sdInsertAll_sorted_nil _ (by simp [SortedE, klt_iff]; omega)
    · rfl
  · have hse : s ≤ e := hv
    simp only [walkStep, stepClosed, replOf, replClosed, keptOf, keptClosed]
    split_ifs with h1 h2 h3 h4
    · rw [mkIv_of_le hk]
      simp [sdInsertAll, sdInsert, klt_irrefl]
    · rw [mkIv_of_le (by omega : st ≤ e), mkIv_of_le (by omega : e ≤ en)]
      exact sdInsertAll_sorted_nil _ (by simp [SortedE, klt_iff]; omega)
    · rw [mkIv_of_le (by omega : st ≤ s), mkIv_of_le (by omega : s ≤ en)]
      exact sdInsertAll_sorted_nil _ (by simp [SortedE, klt_iff]; omega)
    · rw [mkIv_of_le (by omega : st ≤ s), mkIv_of_le hse, mkIv_of_le (by omega : e ≤ en)]
      exact sdInsertAll_sorted_nil _ (by simp [SortedE, klt_iff]; omega)
    · rfl

end MDS

namespace MDS

/-! ## cmap / cmapK toolkit -/

theorem cmap_nil (f : Entry → List Entry) : cmap f [] = [] := rfl

theorem cmap_cons (f : Entry → List Entry) (a : Entry) (t : List Entry) :
    cmap f (a :: t) = f a ++ cmap f t := rfl

theorem cmap_append (f : Entry → List Entry) (A B : List Entry) :
    cmap f (A ++ B) = cmap f A ++ cmap f B := by
  induction A with
  | nil => rfl
  | cons a t ih => simp [cmap_cons, ih]

theorem mem_cmap {f : Entry → List Entry} {x : Entry} {l : List Entry} :
    x ∈ cmap f l ↔ ∃ a ∈ l, x ∈ f a := by
  induction l with
  | nil => simp [cmap]
  | cons a t ih =>
    rw [cmap_cons]
    simp [ih]

theorem mem_cmapK {f : Entry → List Iv} {x : Iv} {l : List Entry} :
    x ∈ cmapK f l ↔ ∃ a ∈ l, x ∈ f a := by
  induction l with
  | nil => simp [cmapK]
  | cons a t ih =>
    rw [cmapK]
    simp [ih]

/-- Chains concatenate along a chain of items. -/
theorem cmap_chain {s : ℤ} {eo : Option ℤ} {l : List Entry} :
    ∀ {lo hi : ℤ}, chainFrom lo hi l → validEv s eo →
      chainFrom lo hi (cmap (replOf s eo) l) := by
  induction l with
  | nil => intro lo hi h _; exact h
  | cons a t ih =>
    intro lo hi h hv
    rcases h with ⟨h1, h2, h3⟩
    rw [cmap_cons]
    have hk : a.1.1 ≤ a.1.2 := by omega
    refine chainFrom_append_of ?_ (ih h3 hv)
    rw [← h1]
    exact repl_chain (by omega) hv

/-! ## Walk characterization -/

theorem walk_rem_eq (s : ℤ) (eo : Option ℤ) (q : List Entry) :
    (walk s eo q).rem = cmapK (fun it => (walkStep s eo it).rem) (q.takeWhile (contCond eo)) := by
  induction q with
  | nil => rfl
  | cons a t ih =>
    rw [walk, List.takeWhile]
    by_cases h : contCond eo a
    · rw [if_pos h, h]
      simp only [cmapK]
      rw [ih]
    · rw [if_neg h]
      rw [Bool.not_eq_true] at h
      rw [h]
      rfl

theorem walk_add_eq (s : ℤ) (eo : Option ℤ) (q : List Entry) :
    (walk s eo q).add = cmap (fun it => (walkStep s eo it).add) (q.takeWhile (contCond eo)) := by
  induction q with
  | nil => rfl
  | cons a t ih =>
    rw [walk, List.takeWhile]
    by_cases h : contCond eo a
    · rw [if_pos h, h]
      simp only [cmap]
      rw [ih]
    · rw [if_neg h]
      rw [Bool.not_eq_true] at h
      rw [h]
      rfl

/-- If no walked item fires a branch, the walk output is trivial. -/
theorem walk_trivial (s : ℤ) (eo : Option ℤ) (q : List Entry)
    (h : ∀ it ∈ q, contCond eo it = true → walkStep s eo it = ⟨[], [], 0, 0⟩) :
    walk s eo q = ⟨[], [], 0, 0⟩ := by
  induction q with
  | nil => rfl
  | cons a t ih =>
    rw [walk]
    by_cases hc : contCond eo a
    · rw [if_pos hc, h a (by simp) hc, ih (fun it hit => h it (by simp [hit]))]
      rfl
    · rw [if_neg hc]

/-! ## Removal characterization -/

theorem sdRemoveAll_nil (l : List Entry) : sdRemoveAll [] l = l := by
  simp [sdRemoveAll]

theorem sdRemoveAll_append_list (ks : List Iv) (A B : List Entry) :
    sdRemoveAll ks (A ++ B) = sdRemoveAll ks A ++ sdRemoveAll ks B := by
  simp [sdRemoveAll]

theorem sdRemoveAll_eq_self {ks : List Iv} {l : List Entry}
    (h : ∀ it ∈ l, ¬ it.1 ∈ ks) : sdRemoveAll ks l = l := by
  rw [sdRemoveAll]
  rw [List.filter_eq_self]
  intro a ha
  simp [h a ha]

theorem sdRemoveAll_congr {ks1 ks2 : List Iv} {l : List Entry}
    (h : ∀ it ∈ l, (it.1 ∈ ks1 ↔ it.1 ∈ ks2)) : sdRemoveAll ks1 l = sdRemoveAll ks2 l := by
  rw [sdRemoveAll, sdRemoveAll]
  apply List.filter_congr
  intro a ha
  have := h a ha
  by_cases h1 : a.1 ∈ ks1
  · simp [h1, this.mp h1]
  · have h2 : ¬ a.1 ∈ ks2 := fun hc => h1 (this.mpr hc)
    simp [h1, h2]

/-- Removing exactly the walk's removals from the walked region leaves the
kept parts, provided the region's keys are strictly sorted. -/
theorem removal_char (s : ℤ) (eo : Option ℤ) (q1 : List Entry) (hs : SortedE q1) :
    sdRemoveAll (cmapK (fun it => (walkStep s eo it).rem) q1) q1 =
      cmap (keptOf s eo) q1 := by
  induction q1 with
  | nil => rfl
  | cons a t ih =>
    rw [SortedE, List.pairwise_cons] at hs
    have hsub : ∀ k ∈ cmapK (fun it => (walkStep s eo it).rem) t, ∃ b ∈ t, k = b.1 := by
      intro k hk
      rcases mem_cmapK.mp hk with ⟨b, hb, hkb⟩
      rcases step_rem_kept s eo b with ⟨h1, -⟩ | ⟨h1, -⟩
      · rw [h1] at hkb
        simp at hkb
      · rw [h1] at hkb
        exact ⟨b, hb, by simpa using hkb⟩
    have hanot : ¬ a.1 ∈ cmapK (fun it => (walkStep s eo it).rem) t := by
      intro hc
      rcases hsub a.1 hc with ⟨b, hb, hab⟩
      have := hs.1 b hb
      rw [← hab] at this
      simp [klt_irrefl] at this
    rw [cmap_cons]
    simp only [cmapK]
    rcases step_rem_kept s eo a with ⟨h1, h2⟩ | ⟨h1, h2⟩
    · rw [h1, h2, List.nil_append]
      have hhead : sdRemoveAll (cmapK (fun it => (walkStep s eo it).rem) t) (a :: t) =
          a :: sdRemoveAll (cmapK (fun it => (walkStep s eo it).rem) t) t := by
        rw [sdRemoveAll, List.filter_cons, if_pos (by simp [hanot]), sdRemoveAll]
      rw [hhead, ih hs.2]
      rfl
    · rw [h1, h2, List.nil_append, List.singleton_append]
      have hhead : sdRemoveAll (a.1 :: cmapK (fun it => (walkStep s eo it).rem) t) (a :: t) =
          sdRemoveAll (a.1 :: cmapK (fun it => (walkStep s eo it).rem) t) t := by
        rw [sdRemoveAll, List.filter_cons, if_neg (by simp), sdRemoveAll]
      rw [hhead]
      have hcongr : sdRemoveAll (a.1 :: cmapK (fun it => (walkStep s eo it).rem) t) t =
          sdRemoveAll (cmapK (fun it => (walkStep s eo it).rem) t) t := by
        apply sdRemoveAll_congr
        intro it hit
        have hane : ¬ it.1 = a.1 := by
          intro hc
          have := hs.1 it hit
          rw [hc] at this
          simp [klt_irrefl] at this
        simp [hane]
      rw [hcongr, ih hs.2]

end MDS

namespace MDS

theorem kle_of_klt {a b : Iv} (h : klt a b = true) : kle a b = true := by
  simp only [klt_iff, kle_iff] at *
  omega

theorem kle_refl (a : Iv) : kle a a = true := by
  simp [kle_iff]

/-- On a strictly sorted list, counting the entries satisfying a
downward-closed predicate measures the initial segment satisfying it. -/
theorem countP_eq_len_takeWhile (p : Entry → Bool) (l : List Entry)
    (hdown : ∀ a b : Entry, klt a.1 b.1 = true → p b = true → p a = true)
    (hs : SortedE l) : l.countP p = (l.takeWhile p).length := by
  induction l with
  | nil => rfl
  | cons a t ih =>
    rw [SortedE, List.pairwise_cons] at hs
    by_cases hpa : p a = true
    · rw [List.countP_cons, List.takeWhile_cons, hpa]
      simp [hpa, ih hs.2]
    · have hpa2 : p a = false := by rwa [Bool.not_eq_true] at hpa
      have ht : ∀ b ∈ t, ¬ p b = true := by
        intro b hb hc
        exact hpa (hdown a b (hs.1 b hb) hc)
      rw [List.countP_cons, List.takeWhile_cons, hpa2]
      simp [hpa2, List.countP_eq_zero.mpr ht]

/-- On a strictly sorted list, everything dropped past a downward-closed
predicate fails it. -/
theorem sorted_dropWhile_false (p : Entry → Bool) (l : List Entry)
    (hdown : ∀ a b : Entry, klt a.1 b.1 = true → p b = true → p a = true)
    (hs : SortedE l) : ∀ y ∈ l.dropWhile p, p y = false := by
  induction l with
  | nil => simp
  | cons a t ih =>
    rw [SortedE, List.pairwise_cons] at hs
    by_cases hpa : p a = true
    · rw [List.dropWhile_cons, if_pos hpa]
      exact ih hs.2
    · rw [List.dropWhile_cons, if_neg hpa]
      intro y hy
      rcases List.mem_cons.mp hy with rfl | hy
      · rwa [Bool.not_eq_true] at hpa
      · rw [Bool.eq_false_iff]
        intro hc
        exact hpa (hdown a y (hs.1 y hy) hc)

theorem dropWhile_nil_of_all {p : Entry → Bool} {l : List Entry}
    (h : ∀ x ∈ l, p x = true) : l.dropWhile p = [] := by
  induction l with
  | nil => rfl
  | cons a t ih =>
    rw [List.dropWhile_cons, if_pos (h a (by simp))]
    exact ih (fun x hx => h x (by simp [hx]))

/-- Key separation between the replacement lists of two chained items, the
later of which is (for an open event) beyond the bisection probe. -/
theorem repl_sep {s tendv : ℤ} {eo : Option ℤ} {a b : Entry}
    (hka : a.1.1 ≤ a.1.2) (hkb : b.1.1 ≤ b.1.2) (hv : validEv s eo)
    (hen : a.1.2 ≤ b.1.1) (hab : klt a.1 b.1 = true) (hahi : eo = none → a.1.2 ≤ tendv)
    (hnb : eo = none → kle b.1 (mkIv s tendv) = false) :
    ∀ r ∈ replOf s eo a, ∀ r2 ∈ replOf s eo b, klt r.1 r2.1 = true := by
  intro r hr r2 hr2
  have hbr := repl_bounds hka hv r hr
  have hbr2 := repl_bounds hkb hv r2 hr2
  rw [klt_iff]
  by_cases h1 : r.1.1 < r2.1.1
  · exact Or.inl h1
  · have hz : r.1.1 = r2.1.1 ∧ r.1.1 = r.1.2 ∧ r.1.2 = a.1.2 ∧ a.1.2 = b.1.1 ∧
        b.1.1 = r2.1.1 := by omega
    right
    refine ⟨hz.1, ?_⟩
    by_cases h2 : r.1.2 < r2.1.2
    · exact h2
    · exfalso
      have hr2deg : r2.1.1 = r2.1.2 := by omega
      have hrdeg : r.1.1 = r.1.2 := hz.2.1
      rcases repl_deg hkb hv r2 hr2 hr2deg with ⟨hb1, hb2⟩ | hb | hb
      · -- r2 has b's own key and b is degenerate
        rcases repl_deg hka hv r hr hrdeg with ⟨ha1, ha2⟩ | ha | ha
        · -- a degenerate too: then a and b have the same key, contradicting order
          have : a.1 = b.1 := by
            have h3 : a.1.1 = a.1.2 := ha2
            have h4 : b.1.1 = b.1.2 := hb2
            have h5 : a.1.2 = b.1.1 := hz.2.2.2.1
            exact Prod.ext (by omega) (by omega)
          rw [this] at hab
          simp [klt_irrefl] at hab
        · omega
        · -- open-event boundary piece: its key starts at s, but then b's key
          -- is `(s,s)`, which the bisection would have counted
          rcases ha with ⟨haeo, ha2, ha3, ha4⟩
          have hb5 : b.1 = (s, s) := by
            have : b.1.1 = s := by omega
            exact Prod.ext this (by omega)
          have := hnb haeo
          rw [hb5] at this
          have hahi2 := hahi haeo
          have hstend : s ≤ tendv := by omega
          rw [mkIv_of_le hstend] at this
          simp [kle] at this
          omega
      · omega
      · omega

/-- Key separation between a replacement list and the unprocessed entry
after it (closed events only; open events never leave a suffix). -/
theorem repl_sep_own {s : ℤ} {eo : Option ℤ} {a b : Entry}
    (hka : a.1.1 ≤ a.1.2) (hkb : b.1.1 ≤ b.1.2) (hv : validEv s eo)
    (hen : a.1.2 ≤ b.1.1) (hab : klt a.1 b.1 = true)
    (hopen : eo = none → False) :
    ∀ r ∈ replOf s eo a, klt r.1 b.1 = true := by
  intro r hr
  have hbr := repl_bounds hka hv r hr
  rw [klt_iff]
  by_cases h1 : r.1.1 < b.1.1
  · exact Or.inl h1
  · have hz : r.1.1 = b.1.1 ∧ r.1.1 = r.1.2 ∧ r.1.2 = a.1.2 ∧ a.1.2 = b.1.1 := by omega
    right
    refine ⟨hz.1, ?_⟩
    by_cases h2 : r.1.2 < b.1.2
    · exact h2
    · exfalso
      have hrdeg : r.1.1 = r.1.2 := hz.2.1
      rcases repl_deg hka hv r hr hrdeg with ⟨ha1, ha2⟩ | ha | ha
      · have : a.1 = b.1 := Prod.ext (by omega) (by omega)
        rw [this] at hab
        simp [klt_irrefl] at hab
      · omega
      · exact hopen ha.1
  -- here `b.1.2 ≤ r.1.2` forces `b` degenerate with the same key when the
  -- degenerate piece is not strictly inside `a`

/-- The key of a kept entry appears among its replacement keys. -/
theorem kept_key_mem_repl {s : ℤ} {eo : Option ℤ} {b : Entry} (hk : b.1.1 ≤ b.1.2)
    (hv : validEv s eo) :
    ∀ r ∈ keptOf s eo b, ∃ r2 ∈ replOf s eo b, r2.1 = r.1 := by
  obtain ⟨⟨st, en⟩, c⟩ := b
  rcases eo with _ | e
  · simp only [keptOf, keptOpen, replOf, replOpen]
    split_ifs <;> simp
  · simp only [keptOf, keptClosed, replOf, replClosed]
    split_ifs <;> simp

/-- Concatenated per-item lists with separated sorted pieces are sorted. -/
theorem sorted_cmap {f : Entry → List Entry} {T : List Entry}
    (hp : T.Pairwise (fun a b => ∀ x ∈ f a, ∀ y ∈ f b, klt x.1 y.1 = true))
    (hf : ∀ it ∈ T, SortedE (f it)) : SortedE (cmap f T) := by
  induction T with
  | nil => exact List.Pairwise.nil
  | cons a t ih =>
    rw [List.pairwise_cons] at hp
    rw [cmap_cons, SortedE, List.pairwise_append]
    refine ⟨hf a (by simp), ih hp.2 (fun it hit => hf it (by simp [hit])), ?_⟩
    intro x hx y hy
    rcases mem_cmap.mp hy with ⟨b, hb, hyb⟩
    exact hp.1 b hb x hx y hyb

end MDS

namespace MDS

/-- Processing the walked items in order: applying every item's additions to
the base list with the removals already performed yields the concatenated
replacement lists, provided keys are separated between the prefix `X`, the
per-item groups, and the suffix `Y`. -/
theorem insert_groups (s : ℤ) (eo : Option ℤ) (Y : List Entry) :
    ∀ (T X : List Entry),
      (∀ it ∈ T, sdInsertAll (walkStep s eo it).add (keptOf s eo it) = replOf s eo it) →
      (∀ it ∈ T, ∀ k2 ∈ (walkStep s eo it).add, ∀ x ∈ X, klt x.1 k2.1 = true) →
      T.Pairwise (fun a b => ∀ r ∈ replOf s eo a, ∀ k2 ∈ (walkStep s eo b).add,
        klt r.1 k2.1 = true) →
      T.Pairwise (fun a b => ∀ k2 ∈ (walkStep s eo a).add, ∀ r ∈ keptOf s eo b,
        klt k2.1 r.1 = true) →
      (∀ it ∈ T, ∀ k2 ∈ (walkStep s eo it).add, ∀ y ∈ Y, klt k2.1 y.1 = true) →
      sdInsertAll (cmap (fun it => (walkStep s eo it).add) T)
          (X ++ cmap (keptOf s eo) T ++ Y)
        = X ++ cmap (replOf s eo) T ++ Y := by
  intro T
  induction T with
  | nil =>
    intro X _ _ _ _ _
    rfl
  | cons a t ih =>
    intro X hitem hX hpair hpair2 hY
    rw [List.pairwise_cons] at hpair hpair2
    rw [cmap_cons, cmap_cons, cmap_cons, sdInsertAll_append]
    simp only [List.append_assoc]
    have stepA : sdInsertAll (walkStep s eo a).add
        (X ++ (keptOf s eo a ++ (cmap (keptOf s eo) t ++ Y)))
        = X ++ (sdInsertAll (walkStep s eo a).add
            (keptOf s eo a ++ (cmap (keptOf s eo) t ++ Y))) := by
      exact sdInsertAll_append_left _ _ _ (fun e he x hx => hX a (by simp) e he x hx)
    have stepB : sdInsertAll (walkStep s eo a).add
        (keptOf s eo a ++ (cmap (keptOf s eo) t ++ Y))
        = sdInsertAll (walkStep s eo a).add (keptOf s eo a) ++ (cmap (keptOf s eo) t ++ Y) := by
      apply sdInsertAll_append_right
      intro e he y hy
      rcases List.mem_append.mp hy with hy | hy
      · rcases mem_cmap.mp hy with ⟨b, hb, hyb⟩
        exact hpair2.1 b hb e he y hyb
      · exact hY a (by simp) e he y hy
    rw [stepA, stepB, hitem a (by simp)]
    have hre : X ++ (replOf s eo a ++ (cmap (keptOf s eo) t ++ Y))
        = (X ++ replOf s eo a) ++ cmap (keptOf s eo) t ++ Y := by
      simp [List.append_assoc]
    rw [hre]
    rw [ih (X ++ replOf s eo a)
      (fun it hit => hitem it (by simp [hit]))
      (fun it hit k2 hk2 x hx => by
        rcases List.mem_append.mp hx with hx | hx
        · exact hX it (by simp [hit]) k2 hk2 x hx
        · exact hpair.1 it hit x hx k2 hk2)
      hpair.2 hpair2.2
      (fun it hit k2 hk2 y hy => hY it (by simp [hit]) k2 hk2 y hy)]
    simp [List.append_assoc]

end MDS

namespace MDS

theorem pairwise_of_length_le_one {R : Entry → Entry → Prop} {l : List Entry}
    (h : l.length ≤ 1) : l.Pairwise R := by
  cases l with
  | nil => exact List.Pairwise.nil
  | cons a t =>
    cases t with
    | nil => simp
    | cons b t2 => simp at h

/-- The own key of an earlier chained item precedes every replacement key of
a later one. -/
theorem repl_sep_own_left {s : ℤ} {eo : Option ℤ} {x b : Entry}
    (hkx : x.1.1 ≤ x.1.2) (hkb : b.1.1 ≤ b.1.2) (hv : validEv s eo)
    (hen : x.1.2 ≤ b.1.1) (hxb : klt x.1 b.1 = true) :
    ∀ r ∈ replOf s eo b, klt x.1 r.1 = true := by
  intro r hr
  have hbr := repl_bounds hkb hv r hr
  rw [klt_iff]
  by_cases h1 : x.1.1 < r.1.1
  · exact Or.inl h1
  · have hz : x.1.1 = r.1.1 ∧ x.1.1 = x.1.2 ∧ x.1.2 = b.1.1 ∧ b.1.1 = r.1.1 := by omega
    right
    refine ⟨hz.1, ?_⟩
    by_cases h2 : x.1.2 < r.1.2
    · exact h2
    · exfalso
      have hrdeg : r.1.1 = r.1.2 := by omega
      rcases repl_deg hkb hv r hr hrdeg with ⟨hb1, hb2⟩ | hb | hb
      · have : x.1 = b.1 := Prod.ext (by omega) (by omega)
        rw [this] at hxb
        simp [klt_irrefl] at hxb
      · omega
      · omega

/-- Decomposing a strictly sorted list at the (clamped) right-bisection
index: a prefix of keys at or below the probe, at most one pivot entry, and
a suffix of keys strictly above the probe. -/
theorem bisect_decomp (L : List Entry) (probe : Iv) (hs : SortedE L) :
    ∃ q0 D2, L.take (bisectRight L probe - 1) ++ (q0 ++ D2) = L ∧
      L.drop (bisectRight L probe - 1) = q0 ++ D2 ∧
      q0.length ≤ 1 ∧
      (∀ x ∈ L.take (bisectRight L probe - 1), kle x.1 probe = true) ∧
      (∀ x ∈ q0, kle x.1 probe = true) ∧
      (∀ y ∈ D2, kle y.1 probe = false) ∧
      (q0 = [] → L.take (bisectRight L probe - 1) = []) := by
  have hdown : ∀ a b : Entry, klt a.1 b.1 = true →
      (fun it => kle it.1 probe) b = true → (fun it => kle it.1 probe) a = true := by
    intro a b h1 h2
    exact kle_of_klt (klt_of_klt_of_kle h1 h2)
  have hm : bisectRight L probe = (L.takeWhile (fun it => kle it.1 probe)).length :=
    countP_eq_len_takeWhile _ L hdown hs
  have hLW : L = L.takeWhile (fun it => kle it.1 probe) ++
      L.dropWhile (fun it => kle it.1 probe) :=
    (List.takeWhile_append_dropWhile (p := fun it => kle it.1 probe) (l := L)).symm
  have hDfalse : ∀ y ∈ L.dropWhile (fun it => kle it.1 probe), kle y.1 probe = false :=
    sorted_dropWhile_false _ L hdown hs
  have hWtrue : ∀ x ∈ L.takeWhile (fun it => kle it.1 probe), kle x.1 probe = true := by
    intro x hx
    exact List.mem_takeWhile_imp (p := fun (it : Entry) => kle it.1 probe) hx
  by_cases h0 : bisectRight L probe = 0
  · have hW : L.takeWhile (fun it => kle it.1 probe) = [] := by
      apply List.length_eq_zero.mp
      omega
    refine ⟨[], L, by simp [h0], by simp [h0], by simp, by simp [h0], by simp, ?_,
      fun _ => by simp [h0]⟩
    intro y hy
    apply hDfalse
    rw [hLW, hW] at hy
    simpa using hy
  · have hm1 : 1 ≤ bisectRight L probe := Nat.one_le_iff_ne_zero.mpr h0
    set n := bisectRight L probe with hn
    have hWlen : (L.takeWhile (fun it => kle it.1 probe)).length = n := hm.symm
    have hlen1 : ((L.takeWhile (fun it => kle it.1 probe)).drop (n - 1)).length = 1 := by
      rw [List.length_drop]
      omega
    obtain ⟨w2, hw2⟩ := List.length_eq_one.mp hlen1
    have hh : n - 1 ≤ (L.takeWhile (fun it => kle it.1 probe)).length := by
      omega
    have htake : L.take (n - 1) =
        (L.takeWhile (fun it => kle it.1 probe)).take (n - 1) := by
      conv_lhs => rw [hLW]
      exact List.take_append_of_le_length hh
    have hdrop : L.drop (n - 1) =
        (L.takeWhile (fun it => kle it.1 probe)).drop (n - 1) ++
          L.dropWhile (fun it => kle it.1 probe) := by
      conv_lhs => rw [hLW]
      exact List.drop_append_of_le_length hh
    refine ⟨[w2], L.dropWhile (fun it => kle it.1 probe), ?_, ?_, by simp, ?_, ?_, hDfalse,
      fun h => by simp at h⟩
    · rw [htake, ← hw2]
      rw [← List.append_assoc, List.take_append_drop]
      exact hLW.symm
    · rw [hdrop, hw2]
    · intro x hx
      rw [htake] at hx
      exact hWtrue x ((List.take_sublist _ _).subset hx)
    · intro x hx
      rcases List.mem_singleton.mp hx with rfl
      have hxmem : x ∈ (L.takeWhile (fun it => kle it.1 probe)).drop (n - 1) := by
        rw [hw2]
        simp
      exact hWtrue x ((List.drop_sublist _ _).subset hxmem)

end MDS

namespace MDS

/-- Central characterization: one `count_event` application on a well-formed
sorted chain rewrites the counts list into the bisection prefix, the
concatenated per-item replacements over the walked region, and the untouched
suffix. -/
theorem bridge_core (s pe lo hi : ℤ) (eo : Option ℤ) (L : List Entry)
    (hpe : eo = none → pe = hi) (hchain : chainFrom lo hi L) (hsorted : SortedE L)
    (hv : validEv s eo) :
    sdInsertAll (sdInsertAll (walk s eo (L.drop (bisectRight L (mkIv s pe) - 1))).add [])
        (sdRemoveAll (walk s eo (L.drop (bisectRight L (mkIv s pe) - 1))).rem L)
      = L.take (bisectRight L (mkIv s pe) - 1) ++
        cmap (replOf s eo)
          ((L.drop (bisectRight L (mkIv s pe) - 1)).takeWhile (contCond eo)) ++
        (L.drop (bisectRight L (mkIv s pe) - 1)).dropWhile (contCond eo) := by
  obtain ⟨q0, D2, hPQ, hdropQ, hq0len, hPtrue, hq0true, hDfalse, -⟩ :=
    bisect_decomp L (mkIv s pe) hsorted
  rw [hdropQ]
  have hk : ∀ it ∈ L, it.1.1 ≤ it.1.2 := fun it hit => (chainFrom_bounds hchain it hit).2.1
  have khi : ∀ it ∈ L, it.1.2 ≤ hi := fun it hit => (chainFrom_bounds hchain it hit).2.2
  have hEnSt : L.Pairwise (fun a b => a.1.2 ≤ b.1.1 ∧ klt a.1 b.1 = true) :=
    List.Pairwise.and (chainFrom_pairwise hchain) hsorted
  have hL : L = L.take (bisectRight L (mkIv s pe) - 1) ++ (q0 ++ D2) := hPQ.symm
  have hQsubL : ∀ x ∈ q0 ++ D2, x ∈ L := by
    intro x hx
    rw [hL]
    exact List.mem_append_right _ hx
  have hPsubL : ∀ x ∈ L.take (bisectRight L (mkIv s pe) - 1), x ∈ L :=
    fun x hx => (List.take_sublist _ _).subset hx
  have hQ1sub : ∀ x ∈ (q0 ++ D2).takeWhile (contCond eo), x ∈ q0 ++ D2 :=
    fun x hx => (List.takeWhile_sublist _).subset hx
  have hQ2sub : ∀ x ∈ (q0 ++ D2).dropWhile (contCond eo), x ∈ q0 ++ D2 :=
    fun x hx => (List.dropWhile_sublist _).subset hx
  have hEnStPQ : (L.take (bisectRight L (mkIv s pe) - 1) ++ (q0 ++ D2)).Pairwise
      (fun a b => a.1.2 ≤ b.1.1 ∧ klt a.1 b.1 = true) := by
    rw [← hL]
    exact hEnSt
  have hPQpair : ∀ x ∈ L.take (bisectRight L (mkIv s pe) - 1), ∀ b ∈ q0 ++ D2,
      x.1.2 ≤ b.1.1 ∧ klt x.1 b.1 = true :=
    (List.pairwise_append.mp hEnStPQ).2.2
  have hQpair : (q0 ++ D2).Pairwise (fun a b => a.1.2 ≤ b.1.1 ∧ klt a.1 b.1 = true) :=
    (List.pairwise_append.mp hEnStPQ).2.1
  have hQpair2 : (((q0 ++ D2).takeWhile (contCond eo)) ++
      ((q0 ++ D2).dropWhile (contCond eo))).Pairwise
      (fun a b => a.1.2 ≤ b.1.1 ∧ klt a.1 b.1 = true) := by
    rw [List.takeWhile_append_dropWhile]
    exact hQpair
  have hRRQ : (q0 ++ D2).Pairwise
      (fun a b => ∀ r ∈ replOf s eo a, ∀ r2 ∈ replOf s eo b, klt r.1 r2.1 = true) := by
    rcases List.pairwise_append.mp hQpair with ⟨hq0p, hD2p, hq0D2⟩
    rw [List.pairwise_append]
    refine ⟨pairwise_of_length_le_one hq0len, ?_, ?_⟩
    · refine List.Pairwise.imp_of_mem ?_ hD2p
      intro a b ha hb hr
      have hka := hk a (hQsubL a (List.mem_append_right _ ha))
      have hkb := hk b (hQsubL b (List.mem_append_right _ hb))
      refine repl_sep hka hkb hv hr.1 hr.2 ?_ (fun _ => hDfalse b hb)
      intro heo
      rw [hpe heo]
      exact khi a (hQsubL a (List.mem_append_right _ ha))
    · intro a ha b hb
      have hr := hq0D2 a ha b hb
      have hka := hk a (hQsubL a (List.mem_append_left _ ha))
      have hkb := hk b (hQsubL b (List.mem_append_right _ hb))
      refine repl_sep hka hkb hv hr.1 hr.2 ?_ (fun _ => hDfalse b hb)
      intro heo
      rw [hpe heo]
      exact khi a (hQsubL a (List.mem_append_left _ ha))
  have hRRQ1 : ((q0 ++ D2).takeWhile (contCond eo)).Pairwise
      (fun a b => ∀ r ∈ replOf s eo a, ∀ r2 ∈ replOf s eo b, klt r.1 r2.1 = true) :=
    List.Pairwise.sublist (List.takeWhile_sublist _) hRRQ
  have hitem : ∀ it ∈ (q0 ++ D2).takeWhile (contCond eo),
      sdInsertAll (walkStep s eo it).add (keptOf s eo it) = replOf s eo it :=
    fun it hit => step_compute (hk it (hQsubL it (hQ1sub it hit))) hv
  have hXh : ∀ it ∈ (q0 ++ D2).takeWhile (contCond eo),
      ∀ k2 ∈ (walkStep s eo it).add, ∀ x ∈ L.take (bisectRight L (mkIv s pe) - 1),
        klt x.1 k2.1 = true := by
    intro it hit k2 hk2 x hx
    have hkit := hk it (hQsubL it (hQ1sub it hit))
    have hkx := hk x (hPsubL x hx)
    have hcr := hPQpair x hx it (hQ1sub it hit)
    exact repl_sep_own_left hkx hkit hv hcr.1 hcr.2 k2 (step_add_mem hkit hv k2 hk2)
  have hpairh : ((q0 ++ D2).takeWhile (contCond eo)).Pairwise
      (fun a b => ∀ r ∈ replOf s eo a, ∀ k2 ∈ (walkStep s eo b).add,
        klt r.1 k2.1 = true) := by
    refine List.Pairwise.imp_of_mem ?_ hRRQ1
    intro a b ha hb hr r hrr k2 hk2
    exact hr r hrr k2 (step_add_mem (hk b (hQsubL b (hQ1sub b hb))) hv k2 hk2)
  have hpair2h : ((q0 ++ D2).takeWhile (contCond eo)).Pairwise
      (fun a b => ∀ k2 ∈ (walkStep s eo a).add, ∀ r ∈ keptOf s eo b,
        klt k2.1 r.1 = true) := by
    refine List.Pairwise.imp_of_mem ?_ hRRQ1
    intro a b ha hb hr k2 hk2 r hrk
    obtain ⟨r2, hr2, hr2e⟩ :=
      kept_key_mem_repl (hk b (hQsubL b (hQ1sub b hb))) hv r hrk
    have := hr k2 (step_add_mem (hk a (hQsubL a (hQ1sub a ha))) hv k2 hk2) r2 hr2
    rwa [hr2e] at this
  have hYh : ∀ it ∈ (q0 ++ D2).takeWhile (contCond eo),
      ∀ k2 ∈ (walkStep s eo it).add, ∀ y ∈ (q0 ++ D2).dropWhile (contCond eo),
        klt k2.1 y.1 = true := by
    intro it hit k2 hk2 y hy
    rcases heo2 : eo with _ | e2
    · exfalso
      rw [heo2] at hy
      have hnil : (q0 ++ D2).dropWhile (contCond none) = [] :=
        dropWhile_nil_of_all (fun x _ => rfl)
      rw [hnil] at hy
      simp at hy
    · have hcr := (List.pairwise_append.mp hQpair2).2.2 it hit y hy
      have hkit := hk it (hQsubL it (hQ1sub it hit))
      have hky := hk y (hQsubL y (hQ2sub y hy))
      refine repl_sep_own hkit hky hv hcr.1 hcr.2 ?_ k2 (step_add_mem hkit hv k2 hk2)
      intro hcontra
      rw [heo2] at hcontra
      exact Option.noConfusion hcontra
  rw [walk_add_eq, walk_rem_eq]
  have hAs : SortedE (cmap (fun it => (walkStep s eo it).add)
      ((q0 ++ D2).takeWhile (contCond eo))) := by
    apply sorted_cmap
    · refine List.Pairwise.imp_of_mem ?_ hRRQ1
      intro a b ha hb hr x hx y hy
      exact hr x (step_add_mem (hk a (hQsubL a (hQ1sub a ha))) hv x hx) y
        (step_add_mem (hk b (hQsubL b (hQ1sub b hb))) hv y hy)
    · intro it hit
      rcases step_add_eq (hk it (hQsubL it (hQ1sub it hit))) hv with h | h
      · rw [h]
        exact repl_sorted (hk it (hQsubL it (hQ1sub it hit))) hv
      · rw [h]
        exact List.Pairwise.nil
  rw [sdInsertAll_sorted_nil _ hAs]
  have hremkeys : ∀ k ∈ cmapK (fun it => (walkStep s eo it).rem)
      ((q0 ++ D2).takeWhile (contCond eo)),
      ∃ it2 ∈ (q0 ++ D2).takeWhile (contCond eo), k = it2.1 := by
    intro k hkm
    rcases mem_cmapK.mp hkm with ⟨b, hb, hkb⟩
    rcases step_rem_kept s eo b with ⟨h1, -⟩ | ⟨h1, -⟩
    · rw [h1] at hkb
      simp at hkb
    · rw [h1] at hkb
      exact ⟨b, hb, by simpa using hkb⟩
  have hQ1sorted : SortedE ((q0 ++ D2).takeWhile (contCond eo)) := by
    refine List.Pairwise.sublist (List.takeWhile_sublist _) ?_
    refine List.Pairwise.sublist ?_ hsorted
    rw [← hdropQ]
    exact List.drop_sublist _ _
  have hQsplit : q0 ++ D2 = ((q0 ++ D2).takeWhile (contCond eo)) ++
      ((q0 ++ D2).dropWhile (contCond eo)) :=
    (List.takeWhile_append_dropWhile (p := contCond eo) (l := q0 ++ D2)).symm
  have hL2 : L = L.take (bisectRight L (mkIv s pe) - 1) ++
      (((q0 ++ D2).takeWhile (contCond eo)) ++ ((q0 ++ D2).dropWhile (contCond eo))) :=
    hL.trans (congrArg (fun z => L.take (bisectRight L (mkIv s pe) - 1) ++ z) hQsplit)
  have hA : sdRemoveAll (cmapK (fun it => (walkStep s eo it).rem)
      ((q0 ++ D2).takeWhile (contCond eo))) (L.take (bisectRight L (mkIv s pe) - 1))
      = L.take (bisectRight L (mkIv s pe) - 1) := by
    apply sdRemoveAll_eq_self
    intro x hx hmem
    obtain ⟨it2, hit2, heq⟩ := hremkeys _ hmem
    have := (hPQpair x hx it2 (hQ1sub it2 hit2)).2
    rw [heq] at this
    simp [klt_irrefl] at this
  have hC : sdRemoveAll (cmapK (fun it => (walkStep s eo it).rem)
      ((q0 ++ D2).takeWhile (contCond eo))) ((q0 ++ D2).dropWhile (contCond eo))
      = (q0 ++ D2).dropWhile (contCond eo) := by
    apply sdRemoveAll_eq_self
    intro y hy hmem
    obtain ⟨it2, hit2, heq⟩ := hremkeys _ hmem
    have := ((List.pairwise_append.mp hQpair2).2.2 it2 hit2 y hy).2
    rw [heq] at this
    simp [klt_irrefl] at this
  have hB := removal_char s eo ((q0 ++ D2).takeWhile (contCond eo)) hQ1sorted
  have hremoval : sdRemoveAll (cmapK (fun it => (walkStep s eo it).rem)
      ((q0 ++ D2).takeWhile (contCond eo))) L
      = L.take (bisectRight L (mkIv s pe) - 1) ++
        cmap (keptOf s eo) ((q0 ++ D2).takeWhile (contCond eo)) ++
        (q0 ++ D2).dropWhile (contCond eo) := by
    conv_lhs => rw [hL2]
    rw [sdRemoveAll_append_list, sdRemoveAll_append_list, hA, hB, hC, ← List.append_assoc]
  rw [hremoval]
  exact insert_groups s eo ((q0 ++ D2).dropWhile (contCond eo))
    ((q0 ++ D2).takeWhile (contCond eo)) (L.take (bisectRight L (mkIv s pe) - 1))
    hitem hXh hpairh hpair2h hYh

end MDS

namespace MDS

/-- The bridge instantiated on a well-formed counter: one `count_event` call
rewrites the counts into the closed-form replacement list. -/
theorem countEventInt_counts (dc : DeviceCounter) (s : ℤ) (eo : Option ℤ)
    (hinv : Inv dc) (hv : validEv s eo) :
    (countEventInt dc s eo).counts = replList dc s eo := by
  obtain ⟨hle, hne, hchain, hsorted⟩ := hinv
  have h := bridge_core s (probeEnd dc eo) dc.tstart dc.tend eo dc.counts
    (fun heo => by rw [heo]; rfl) hchain hsorted hv
  exact h

theorem countEventInt_tstart (dc : DeviceCounter) (s : ℤ) (eo : Option ℤ) :
    (countEventInt dc s eo).tstart = dc.tstart := rfl

theorem countEventInt_tend (dc : DeviceCounter) (s : ℤ) (eo : Option ℤ) :
    (countEventInt dc s eo).tend = dc.tend := rfl

theorem replList_chain {dc : DeviceCounter} {s : ℤ} {eo : Option ℤ}
    (hchain : chainFrom dc.tstart dc.tend dc.counts) (hv : validEv s eo) :
    chainFrom dc.tstart dc.tend (replList dc s eo) := by
  have hsplit : dc.counts = dc.counts.take (insertidx dc s eo) ++
      ((dc.counts.drop (insertidx dc s eo)).takeWhile (contCond eo) ++
        (dc.counts.drop (insertidx dc s eo)).dropWhile (contCond eo)) := by
    rw [List.takeWhile_append_dropWhile, List.take_append_drop]
  rw [hsplit] at hchain
  obtain ⟨m1, hP, hQQ⟩ := chainFrom_append_split hchain
  obtain ⟨m2, hQ1c, hQ2c⟩ := chainFrom_append_split hQQ
  have hM := cmap_chain hQ1c hv
  have hall := chainFrom_append_of hP (chainFrom_append_of hM hQ2c)
  show chainFrom dc.tstart dc.tend (dc.counts.take (insertidx dc s eo) ++
    cmap (replOf s eo) ((dc.counts.drop (insertidx dc s eo)).takeWhile (contCond eo)) ++
    (dc.counts.drop (insertidx dc s eo)).dropWhile (contCond eo))
  rw [List.append_assoc]
  exact hall

theorem replList_ne_nil {dc : DeviceCounter} {s : ℤ} {eo : Option ℤ}
    (hk : ∀ it ∈ dc.counts, it.1.1 ≤ it.1.2) (hne : dc.counts ≠ [])
    (hv : validEv s eo) : replList dc s eo ≠ [] := by
  intro hc
  have hc2 : dc.counts.take (insertidx dc s eo) = [] ∧
      cmap (replOf s eo) ((dc.counts.drop (insertidx dc s eo)).takeWhile (contCond eo)) = [] ∧
      (dc.counts.drop (insertidx dc s eo)).dropWhile (contCond eo) = [] := by
    have : dc.counts.take (insertidx dc s eo) ++
        cmap (replOf s eo) ((dc.counts.drop (insertidx dc s eo)).takeWhile (contCond eo)) ++
        (dc.counts.drop (insertidx dc s eo)).dropWhile (contCond eo) = [] := hc
    simpa [List.append_eq_nil] using this
  have hQ1nil : (dc.counts.drop (insertidx dc s eo)).takeWhile (contCond eo) = [] := by
    by_contra hq
    rcases List.exists_cons_of_ne_nil hq with ⟨it, rest, hq2⟩
    have hitmem : it ∈ dc.counts := by
      have h1 : it ∈ (dc.counts.drop (insertidx dc s eo)).takeWhile (contCond eo) := by
        rw [hq2]
        simp
      exact (List.drop_sublist _ _).subset ((List.takeWhile_sublist _).subset h1)
    have := hc2.2.1
    rw [hq2, cmap_cons] at this
    rcases List.append_eq_nil.mp this with ⟨h1, -⟩
    exact repl_ne_nil (hk it hitmem) hv h1
  have : dc.counts = [] := by
    have h3 : dc.counts = dc.counts.take (insertidx dc s eo) ++
        ((dc.counts.drop (insertidx dc s eo)).takeWhile (contCond eo) ++
          (dc.counts.drop (insertidx dc s eo)).dropWhile (contCond eo)) := by
      rw [List.takeWhile_append_dropWhile, List.take_append_drop]
    rw [h3, hc2.1, hQ1nil, hc2.2.2]
    rfl
  exact hne this

/-- `Inv` is preserved by `count_event` for chronologically valid events. -/
theorem Inv_countEventInt {dc : DeviceCounter} {s : ℤ} {eo : Option ℤ}
    (hinv : Inv dc) (hv : validEv s eo) : Inv (countEventInt dc s eo) := by
  have hk : ∀ it ∈ dc.counts, it.1.1 ≤ it.1.2 :=
    fun it hit => (chainFrom_bounds hinv.2.2.1 it hit).2.1
  refine ⟨hinv.1, ?_, ?_, ?_⟩
  · rw [countEventInt_counts dc s eo hinv hv]
    exact replList_ne_nil hk hinv.2.1 hv
  · show chainFrom dc.tstart dc.tend (countEventInt dc s eo).counts
    rw [countEventInt_counts dc s eo hinv hv]
    exact replList_chain hinv.2.2.1 hv
  · exact sorted_countEventInt dc s eo hinv.2.2.2

theorem Inv_mkCounter {a b : ℤ} (hab : a ≤ b) : Inv (mkCounter a b) := by
  refine ⟨hab, by simp [mkCounter, DeviceCounter.reset], ?_, ?_⟩
  · show chainFrom a b [(mkIv a b, 0)]
    rw [mkIv_of_le hab]
    exact ⟨rfl, hab, rfl⟩
  · show List.Pairwise _ [(mkIv a b, 0)]
    simp

theorem Inv_foldEvents {dc : DeviceCounter} (hinv : Inv dc) {evs : List (ℤ × Option ℤ)}
    (hevs : ∀ ev ∈ evs, validEv ev.1 ev.2) : Inv (foldEvents dc evs) := by
  induction evs generalizing dc with
  | nil => exact hinv
  | cons ev rest ih =>
    exact ih (Inv_countEventInt hinv (hevs ev (by simp)))
      (fun ev2 h2 => hevs ev2 (by simp [h2]))

theorem foldEvents_tstart (dc : DeviceCounter) (evs : List (ℤ × Option ℤ)) :
    (foldEvents dc evs).tstart = dc.tstart ∧ (foldEvents dc evs).tend = dc.tend := by
  induction evs generalizing dc with
  | nil => exact ⟨rfl, rfl⟩
  | cons ev rest ih => exact ih (countEventInt dc ev.1 ev.2)

/-- A nonempty endpoint-to-endpoint chain satisfies the partition property
exactly as the specification states it. -/
theorem chainFrom_claimPartition {lo hi : ℤ} {l : List Entry}
    (hchain : chainFrom lo hi l) (hne : l ≠ []) : ClaimPartition lo hi l := by
  have hp := chainFrom_pairwise hchain
  have hb := chainFrom_bounds hchain
  refine ⟨?_, ?_, ?_⟩
  · refine List.Pairwise.imp_of_mem ?_ hp
    intro a b ha hb2 hr t ht1 ht2 ht3 ht4
    have hba := hb a ha
    have hbb := hb b hb2
    exact ⟨Or.inr (by omega), Or.inl (by omega)⟩
  · refine List.Pairwise.imp_of_mem ?_ hp
    intro a b ha hb2 hr
    have hba := hb a ha
    omega
  · intro t
    constructor
    · rintro ⟨it, hit, h1, h2⟩
      have := hb it hit
      omega
    · rintro ⟨h1, h2⟩
      exact chainFrom_cover hchain hne t h1 h2

/-- C1 amended: for every window `[T0,T1]` with `T0 ≤ T1` and every finite
sequence of *chronologically valid* numeric events (each closed event has
`start ≤ end`; reversed events are excluded, as the counterexample shows they
break the invariant), the partition after folding is pairwise disjoint except
at shared endpoints, ordered by start, and its union is exactly `[T0,T1]`. -/
theorem C1_amended (a b : ℤ) (hab : a ≤ b) (evs : List (ℤ × Option ℤ))
    (hevs : ∀ ev ∈ evs, validEv ev.1 ev.2) :
    ClaimPartition a b (foldEvents (mkCounter a b) evs).counts := by
  have hinv := Inv_foldEvents (Inv_mkCounter hab) hevs
  obtain ⟨hts, hte⟩ := foldEvents_tstart (mkCounter a b) evs
  have hchain := hinv.2.2.1
  rw [hts, hte] at hchain
  exact chainFrom_claimPartition hchain hinv.2.1

/-- C1 amended, witness: the invariant at a concrete window and event list. -/
theorem C1_amended_witness :
    ClaimPartition 0 100 (foldEvents (mkCounter 0 100) [(0, some 50), (25, some 75)]).counts :=
  C1_amended 0 100 (by norm_num) [(0, some 50), (25, some 75)]
    (by
      intro ev hev
      simp only [List.mem_cons, List.mem_singleton, List.not_mem_nil, or_false] at hev
      rcases hev with rfl | rfl
      · show (0 : ℤ) ≤ 50
        norm_num
      · show (25 : ℤ) ≤ 75
        norm_num)

end MDS

namespace MDS

/-! ## Conservation (the Riemann-sum bookkeeping) -/

theorem wsum_nil : wsum [] = 0 := rfl

theorem wsum_cons (it : Entry) (l : List Entry) :
    wsum (it :: l) = (it.2 : ℤ) * (it.1.2 - it.1.1) + wsum l := by
  simp [wsum]

theorem wsum_append (A B : List Entry) : wsum (A ++ B) = wsum A + wsum B := by
  simp [wsum]

theorem ovl_split {a b x y z : ℤ} (h1 : x ≤ y) (h2 : y ≤ z) :
    ovl a b x y + ovl a b y z = ovl a b x z := by
  simp only [ovl]
  omega

theorem ovl_self (a b x : ℤ) : ovl a b x x = 0 := by
  simp only [ovl]
  omega

/-- Per-item conservation, closed event: the replacement list gains exactly
the width of the overlap of `[s,e]` with the sub-interval (items reached by
the walk have `start < e`). -/
theorem wsum_replClosed (s e : ℤ) {it : Entry} (hk : it.1.1 ≤ it.1.2) (hse : s ≤ e)
    (hcond : it.1.1 < e) :
    wsum (replClosed s e it) = wsum [it] + ovl s e it.1.1 it.1.2 := by
  obtain ⟨⟨st, en⟩, c⟩ := it
  simp only at hk hcond
  simp only [replClosed]
  split_ifs with h1 h2 h3 h4
  · have hovl : ovl s e st en = en - st := by
      simp only [ovl]
      omega
    simp only [wsum_cons, wsum_nil, hovl]
    push_cast
    ring
  · have hovl : ovl s e st en = e - st := by
      simp only [ovl]
      omega
    simp only [wsum_cons, wsum_nil, hovl]
    push_cast
    ring
  · have hovl : ovl s e st en = en - s := by
      simp only [ovl]
      omega
    simp only [wsum_cons, wsum_nil, hovl]
    push_cast
    ring
  · have hovl : ovl s e st en = e - s := by
      simp only [ovl]
      omega
    simp only [wsum_cons, wsum_nil, hovl]
    push_cast
    ring
  · have hovl : ovl s e st en = 0 := by
      simp only [ovl]
      omega
    simp only [wsum_cons, wsum_nil, hovl]
    ring

/-- Per-item conservation, open event: the gained width is the overlap of
`[s, hi]` with the sub-interval, for sub-intervals inside the window. -/
theorem wsum_replOpen (s hi : ℤ) {it : Entry} (hk : it.1.1 ≤ it.1.2)
    (hen : it.1.2 ≤ hi) :
    wsum (replOpen s it) = wsum [it] + ovl s hi it.1.1 it.1.2 := by
  obtain ⟨⟨st, en⟩, c⟩ := it
  simp only at hk hen
  simp only [replOpen]
  split_ifs with h1 h2
  · have hovl : ovl s hi st en = en - st := by
      simp only [ovl]
      omega
    simp only [wsum_cons, wsum_nil, hovl]
    push_cast
    ring
  · have hovl : ovl s hi st en = en - s := by
      simp only [ovl]
      omega
    simp only [wsum_cons, wsum_nil, hovl]
    push_cast
    ring
  · have hovl : ovl s hi st en = 0 := by
      simp only [ovl]
      omega
    simp only [wsum_cons, wsum_nil, hovl]
    ring

/-- Chain-wide conservation for a closed event: the walked region gains the
overlap of `[s,e]` with its span. -/
theorem wsum_cmap_chain_closed (s e : ℤ) {l : List Entry} :
    ∀ {a b : ℤ}, chainFrom a b l → s ≤ e → (∀ it ∈ l, it.1.1 < e) →
      wsum (cmap (replOf s (some e)) l) = wsum l + ovl s e a b := by
  induction l with
  | nil =>
    intro a b hchain hse hcond
    have : a = b := hchain
    subst this
    simp [cmap, wsum_nil, ovl_self]
  | cons it rest ih =>
    intro a b hchain hse hcond
    rcases hchain with ⟨h1, h2, h3⟩
    subst h1
    rw [cmap_cons, wsum_append, wsum_cons]
    rw [ih h3 hse (fun it2 h2 => hcond it2 (by simp [h2]))]
    have hbit : it.1.2 ≤ b := chainFrom_le h3
    rw [show replOf s (some e) it = replClosed s e it from rfl]
    rw [wsum_replClosed s e (by omega) hse (hcond it (by simp))]
    rw [wsum_cons, wsum_nil]
    have hsp := ovl_split (a := s) (b := e)
      (by omega : it.1.1 ≤ it.1.2) (by omega : it.1.2 ≤ b)
    omega

/-- Chain-wide conservation for an open event: the walked region gains the
overlap of `[s, hi]` with its span. -/
theorem wsum_cmap_chain_open (s hi : ℤ) {l : List Entry} :
    ∀ {a b : ℤ}, chainFrom a b l → b ≤ hi →
      wsum (cmap (replOf s none) l) = wsum l + ovl s hi a b := by
  induction l with
  | nil =>
    intro a b hchain hbh
    have : a = b := hchain
    subst this
    simp [cmap, wsum_nil, ovl_self]
  | cons it rest ih =>
    intro a b hchain hbh
    rcases hchain with ⟨h1, h2, h3⟩
    subst h1
    rw [cmap_cons, wsum_append, wsum_cons]
    rw [ih h3 hbh]
    have hbit : it.1.2 ≤ b := chainFrom_le h3
    rw [show replOf s none it = replOpen s it from rfl]
    rw [wsum_replOpen s hi (by omega) (by omega)]
    rw [wsum_cons, wsum_nil]
    have hsp := ovl_split (a := s) (b := hi)
      (by omega : it.1.1 ≤ it.1.2) (by omega : it.1.2 ≤ b)
    omega

theorem dropWhile_head_false {p : Entry → Bool} {l t : List Entry} {y : Entry}
    (h : l.dropWhile p = y :: t) : p y = false := by
  induction l with
  | nil => simp at h
  | cons a t2 ih =>
    rw [List.dropWhile_cons] at h
    split_ifs at h with hpa
    · exact ih h
    · rw [← (List.cons.injEq _ _ _ _).mp h |>.1]
      rwa [Bool.not_eq_true] at hpa

end MDS

namespace MDS

/-- C2: Conservation law.  For one `count_event` call on a well-formed
counter over `[T0,T1]` with well-formed numeric inputs (chronologically
valid: `event_start ≤ event_end` for a closed event), the width-weighted
total count grows by exactly the width of the intersection of
`[event_start, event_end]` (resp. `[event_start, T1]` for an open event)
with `[T0, T1]`.  In particular events extending beyond the window are
clamped and events wholly outside it contribute zero width. -/
theorem C2_conservation (dc : DeviceCounter) (s : ℤ) (eo : Option ℤ)
    (hinv : Inv dc) (hv : validEv s eo) :
    wsum (countEventInt dc s eo).counts =
      wsum dc.counts +
        ovl s (match eo with | some e => e | none => dc.tend) dc.tstart dc.tend := by
  obtain ⟨hle, hne, hchain, hsorted⟩ := hinv
  rw [countEventInt_counts dc s eo ⟨hle, hne, hchain, hsorted⟩ hv]
  obtain ⟨q0, D2, hPQ, hdropQ, hq0len, hPtrue, hq0true, hDfalse, hq0P⟩ :=
    bisect_decomp dc.counts (mkIv s (probeEnd dc eo)) hsorted
  have hd : dc.counts.drop (insertidx dc s eo) = q0 ++ D2 := hdropQ
  have hrl : replList dc s eo = dc.counts.take (insertidx dc s eo) ++
      cmap (replOf s eo) ((q0 ++ D2).takeWhile (contCond eo)) ++
      (q0 ++ D2).dropWhile (contCond eo) := by
    show dc.counts.take (insertidx dc s eo) ++
      cmap (replOf s eo) ((dc.counts.drop (insertidx dc s eo)).takeWhile (contCond eo)) ++
      (dc.counts.drop (insertidx dc s eo)).dropWhile (contCond eo) = _
    rw [hd]
  have hsplitL : dc.counts = dc.counts.take (insertidx dc s eo) ++
      ((q0 ++ D2).takeWhile (contCond eo) ++ (q0 ++ D2).dropWhile (contCond eo)) := by
    rw [List.takeWhile_append_dropWhile, ← hd, List.take_append_drop]
  have hchain2 : chainFrom dc.tstart dc.tend (dc.counts.take (insertidx dc s eo) ++
      ((q0 ++ D2).takeWhile (contCond eo) ++ (q0 ++ D2).dropWhile (contCond eo))) := by
    rw [← hsplitL]
    exact hchain
  obtain ⟨m1, hPc, hQQc⟩ := chainFrom_append_split hchain2
  obtain ⟨m2, hQ1c, hQ2c⟩ := chainFrom_append_split hQQc
  have hm1s : q0 ≠ [] → m1 ≤ s := by
    intro hq0
    rcases q0 with _ | ⟨w2, q0t⟩
    · exact absurd rfl hq0
    · have hq0t : q0t = [] := by simpa using hq0len
      subst hq0t
      have hQapp : (((w2 :: []) ++ D2).takeWhile (contCond eo) ++
          ((w2 :: []) ++ D2).dropWhile (contCond eo)) = w2 :: D2 := by
        rw [List.takeWhile_append_dropWhile]
        rfl
      rw [hQapp] at hQQc
      have hw2 : w2.1.1 = m1 := hQQc.1
      have hkle := hq0true w2 (by simp)
      rw [kle_iff] at hkle
      have := mkIv_fst_le s (probeEnd dc eo)
      omega
  have hPm1 : q0 = [] → dc.tstart = m1 := by
    intro hq0
    have hPnil := hq0P hq0
    have hPnil2 : dc.counts.take (insertidx dc s eo) = [] := hPnil
    rw [hPnil2] at hPc
    exact hPc
  have hlom1 : dc.tstart ≤ m1 := chainFrom_le hPc
  have hm1m2 : m1 ≤ m2 := chainFrom_le hQ1c
  have hm2hi : m2 ≤ dc.tend := chainFrom_le hQ2c
  rw [hrl, wsum_append, wsum_append]
  have hwL : wsum dc.counts = wsum (dc.counts.take (insertidx dc s eo)) +
      (wsum ((q0 ++ D2).takeWhile (contCond eo)) +
        wsum ((q0 ++ D2).dropWhile (contCond eo))) := by
    conv_lhs => rw [hsplitL]
    rw [wsum_append, wsum_append]
  rw [hwL]
  rcases eo with _ | e
  · -- open event
    have hmid := wsum_cmap_chain_open s dc.tend hQ1c hm2hi
    have hleft : ovl s dc.tend dc.tstart m1 = 0 := by
      rcases hq : q0 with _ | ⟨w2, q0t⟩
      · rw [← hPm1 hq]
        exact ovl_self _ _ _
      · have hm := hm1s (by rw [hq]; simp)
        simp only [ovl]
        omega
    have hright : ovl s dc.tend m2 dc.tend = 0 := by
      rcases hQ2 : (q0 ++ D2).dropWhile (contCond none) with _ | ⟨y, t⟩
      · rw [hQ2] at hQ2c
        have h9 : m2 = dc.tend := hQ2c
        rw [h9]
        exact ovl_self _ _ _
      · have := dropWhile_head_false hQ2
        simp [contCond] at this
    have hsp1 := ovl_split (a := s) (b := dc.tend) hlom1 hm1m2
    have hsp2 := ovl_split (a := s) (b := dc.tend) (le_trans hlom1 hm1m2) hm2hi
    show wsum (dc.counts.take (insertidx dc s none)) +
        wsum (cmap (replOf s none) ((q0 ++ D2).takeWhile (contCond none))) +
        wsum ((q0 ++ D2).dropWhile (contCond none)) =
      wsum (dc.counts.take (insertidx dc s none)) +
        (wsum ((q0 ++ D2).takeWhile (contCond none)) +
          wsum ((q0 ++ D2).dropWhile (contCond none))) + ovl s dc.tend dc.tstart dc.tend
    omega
  · -- closed event
    have hse : s ≤ e := hv
    have hcond : ∀ it ∈ (q0 ++ D2).takeWhile (contCond (some e)), it.1.1 < e := by
      intro it hit
      have := List.mem_takeWhile_imp (p := contCond (some e)) hit
      simpa [contCond] using this
    have hmid := wsum_cmap_chain_closed s e hQ1c hse hcond
    have hleft : ovl s e dc.tstart m1 = 0 := by
      rcases hq : q0 with _ | ⟨w2, q0t⟩
      · rw [← hPm1 hq]
        exact ovl_self _ _ _
      · have hm := hm1s (by rw [hq]; simp)
        simp only [ovl]
        omega
    have hright : ovl s e m2 dc.tend = 0 := by
      rcases hQ2 : (q0 ++ D2).dropWhile (contCond (some e)) with _ | ⟨y, t⟩
      · rw [hQ2] at hQ2c
        have h9 : m2 = dc.tend := hQ2c
        rw [h9]
        simp only [ovl]
        omega
      · have hyf := dropWhile_head_false hQ2
        simp [contCond] at hyf
        rw [hQ2] at hQ2c
        have hy1 : y.1.1 = m2 := hQ2c.1
        simp only [ovl]
        omega
    have hsp1 := ovl_split (a := s) (b := e) hlom1 hm1m2
    have hsp2 := ovl_split (a := s) (b := e) (le_trans hlom1 hm1m2) hm2hi
    show wsum (dc.counts.take (insertidx dc s (some e))) +
        wsum (cmap (replOf s (some e)) ((q0 ++ D2).takeWhile (contCond (some e)))) +
        wsum ((q0 ++ D2).dropWhile (contCond (some e))) =
      wsum (dc.counts.take (insertidx dc s (some e))) +
        (wsum ((q0 ++ D2).takeWhile (contCond (some e))) +
          wsum ((q0 ++ D2).dropWhile (contCond (some e)))) + ovl s e dc.tstart dc.tend
    omega

/-- C2, witness: a closed event extending beyond both window ends is clamped
to the full window width. -/
theorem C2_conservation_witness :
    wsum (countEventInt (mkCounter 0 100) (-10) (some 150)).counts =
      wsum (mkCounter 0 100).counts + ovl (-10) 150 0 100 :=
  C2_conservation (mkCounter 0 100) (-10) (some 150) (Inv_mkCounter (by norm_num))
    (by norm_num [validEv])

end MDS

namespace MDS

/-! ## Occupancy monotonicity -/

theorem occAt_cons_cover {it : Entry} {l : List Entry} {t : ℤ}
    (h1 : it.1.1 ≤ t) (h2 : t ≤ it.1.2) : occAt (it :: l) t = it.2 := by
  rw [occAt, List.find?_cons_of_pos _ (by simp [h1, h2])]

theorem occAt_cons_nocover {it : Entry} {l : List Entry} {t : ℤ}
    (h : ¬(it.1.1 ≤ t ∧ t ≤ it.1.2)) : occAt (it :: l) t = occAt l t := by
  rw [occAt, List.find?_cons_of_neg _ (by simpa using h), occAt]

theorem occAt_append_nocover {A B : List Entry} {t : ℤ}
    (h : ∀ x ∈ A, ¬(x.1.1 ≤ t ∧ t ≤ x.1.2)) : occAt (A ++ B) t = occAt B t := by
  induction A with
  | nil => rfl
  | cons a T ih =>
    rw [List.cons_append, occAt_cons_nocover (h a (by simp))]
    exact ih (fun x hx => h x (by simp [hx]))

theorem occAt_append_cover_left {A B : List Entry} {t : ℤ}
    (h : ∃ x ∈ A, x.1.1 ≤ t ∧ t ≤ x.1.2) : occAt (A ++ B) t = occAt A t := by
  induction A with
  | nil => simp at h
  | cons a T ih =>
    by_cases hc : a.1.1 ≤ t ∧ t ≤ a.1.2
    · rw [List.cons_append, occAt_cons_cover hc.1 hc.2, occAt_cons_cover hc.1 hc.2]
    · rcases h with ⟨x, hx, hxc⟩
      rcases List.mem_cons.mp hx with rfl | hx
      · exact absurd hxc hc
      · rw [List.cons_append, occAt_cons_nocover hc, occAt_cons_nocover hc]
        exact ih ⟨x, hx, hxc⟩

theorem occAt_cover_ge {A B : List Entry} {t : ℤ} {c : ℕ}
    (hex : ∃ x ∈ A, x.1.1 ≤ t ∧ t ≤ x.1.2) (hall : ∀ x ∈ A, c ≤ x.2) :
    c ≤ occAt (A ++ B) t := by
  induction A with
  | nil => simp at hex
  | cons a T ih =>
    by_cases hc : a.1.1 ≤ t ∧ t ≤ a.1.2
    · rw [List.cons_append, occAt_cons_cover hc.1 hc.2]
      exact hall a (by simp)
    · rcases hex with ⟨x, hx, hxc⟩
      rcases List.mem_cons.mp hx with rfl | hx
      · exact absurd hxc hc
      · rw [List.cons_append, occAt_cons_nocover hc]
        exact ih ⟨x, hx, hxc⟩ (fun x2 hx2 => hall x2 (by simp [hx2]))

theorem occAt_mono_concat {s : ℤ} {eo : Option ℤ} (t : ℤ) :
    ∀ (Q1 Q2 : List Entry), (∀ it ∈ Q1, it.1.1 ≤ it.1.2) → validEv s eo →
      occAt (Q1 ++ Q2) t ≤ occAt (cmap (replOf s eo) Q1 ++ Q2) t := by
  intro Q1
  induction Q1 with
  | nil => intro Q2 _ _; exact le_refl _
  | cons it T ih =>
    intro Q2 hk hv
    have hkit := hk it (by simp)
    rw [cmap_cons, List.append_assoc]
    by_cases hc : it.1.1 ≤ t ∧ t ≤ it.1.2
    · rw [List.cons_append, occAt_cons_cover hc.1 hc.2]
      refine occAt_cover_ge ?_ (repl_counts_ge hkit hv)
      have hcover := chainFrom_cover (repl_chain hkit hv) (repl_ne_nil hkit hv) t hc.1 hc.2
      exact hcover
    · rw [List.cons_append, occAt_cons_nocover hc]
      have hnone : ∀ x ∈ replOf s eo it, ¬(x.1.1 ≤ t ∧ t ≤ x.1.2) := by
        intro x hx hxc
        have := repl_bounds hkit hv x hx
        exact hc ⟨by omega, by omega⟩
      rw [occAt_append_nocover hnone]
      exact ih Q2 (fun x hx => hk x (by simp [hx])) hv

/-- C8 amended: on a well-formed counter and for a chronologically valid
numeric event (the counterexample shows reversed events can decrease
occupancy), the occupancy at every instant never decreases across a
`count_event` call. -/
theorem C8_monotone (dc : DeviceCounter) (s : ℤ) (eo : Option ℤ)
    (hinv : Inv dc) (hv : validEv s eo) (t : ℤ) :
    occAt dc.counts t ≤ occAt (countEventInt dc s eo).counts t := by
  rw [countEventInt_counts dc s eo hinv hv]
  obtain ⟨hle, hne, hchain, hsorted⟩ := hinv
  have hk : ∀ it ∈ dc.counts, it.1.1 ≤ it.1.2 :=
    fun it hit => (chainFrom_bounds hchain it hit).2.1
  have hsplitL : dc.counts = dc.counts.take (insertidx dc s eo) ++
      ((dc.counts.drop (insertidx dc s eo)).takeWhile (contCond eo) ++
        (dc.counts.drop (insertidx dc s eo)).dropWhile (contCond eo)) := by
    rw [List.takeWhile_append_dropWhile, List.take_append_drop]
  have hrl : replList dc s eo = dc.counts.take (insertidx dc s eo) ++
      (cmap (replOf s eo) ((dc.counts.drop (insertidx dc s eo)).takeWhile (contCond eo)) ++
        (dc.counts.drop (insertidx dc s eo)).dropWhile (contCond eo)) := by
    show dc.counts.take (insertidx dc s eo) ++
      cmap (replOf s eo) ((dc.counts.drop (insertidx dc s eo)).takeWhile (contCond eo)) ++
      (dc.counts.drop (insertidx dc s eo)).dropWhile (contCond eo) = _
    rw [List.append_assoc]
  rw [hrl]
  conv_lhs => rw [hsplitL]
  by_cases hP : ∀ x ∈ dc.counts.take (insertidx dc s eo), ¬(x.1.1 ≤ t ∧ t ≤ x.1.2)
  · rw [occAt_append_nocover hP, occAt_append_nocover hP]
    refine occAt_mono_concat t _ _ ?_ hv
    intro x hx
    exact hk x ((List.drop_sublist _ _).subset ((List.takeWhile_sublist _).subset hx))
  · push_neg at hP
    rcases hP with ⟨x, hx, hx1, hx2⟩
    rw [occAt_append_cover_left ⟨x, hx, hx1, hx2⟩, occAt_append_cover_left ⟨x, hx, hx1, hx2⟩]

/-- C8 amended, witness: monotonicity at a concrete state, event and
instant. -/
theorem C8_monotone_witness :
    occAt (mkCounter 0 100).counts 50 ≤
      occAt (countEventInt (mkCounter 0 100) 20 (some 60)).counts 50 :=
  C8_monotone (mkCounter 0 100) 20 (some 60) (Inv_mkCounter (by norm_num))
    (by norm_num [validEv]) 50

end MDS

namespace MDS

/-- C9 amended: a chronologically valid closed event lying entirely outside
the counter window (the counterexample shows a reversed out-of-window pair
does mutate the partition) leaves the partition, split total and device
count untouched and only increments the event total, provided no degenerate
key `(tend, tend)` sits at the window's right edge. -/
theorem C9_frame (dc : DeviceCounter) (s e : ℤ)
    (hinv : Inv dc) (hse : s ≤ e) (hout : e ≤ dc.tstart ∨ dc.tend ≤ s)
    (hnk : ∀ it ∈ dc.counts, it.1 ≠ (dc.tend, dc.tend)) :
    countEventInt dc s (some e) = { dc with events := dc.events + 1 } := by
  obtain ⟨hle, hne, hchain, hsorted⟩ := hinv
  have hw : walk s (some e) (dc.counts.drop (insertidx dc s (some e))) = ⟨[], [], 0, 0⟩ := by
    refine walk_trivial s (some e) _ ?_
    intro it hit hcont
    have hmem : it ∈ dc.counts := (List.drop_sublist _ _).subset hit
    have hb := chainFrom_bounds hchain it hmem
    obtain ⟨⟨st, en⟩, c⟩ := it
    simp only at hb
    have hste : st < e := by simpa [contCond] using hcont
    rcases hout with hout | hout
    · exfalso; omega
    · have hne2 : ((st, en) : Iv) ≠ (dc.tend, dc.tend) := hnk _ hmem
      show stepClosed s e ((st, en), c) = ⟨[], [], 0, 0⟩
      simp only [stepClosed]
      split_ifs with h1 h2 h3 h4
      · exfalso
        apply hne2
        have h5 : st = dc.tend ∧ en = dc.tend := by omega
        rw [h5.1, h5.2]
      · exfalso; omega
      · exfalso; omega
      · exfalso; omega
      · rfl
  show ({ dc with
      counts := sdInsertAll
        (sdInsertAll (walk s (some e) (dc.counts.drop (insertidx dc s (some e)))).add [])
        (sdRemoveAll (walk s (some e) (dc.counts.drop (insertidx dc s (some e)))).rem dc.counts),
      splits := dc.splits + (walk s (some e) (dc.counts.drop (insertidx dc s (some e)))).spl,
      counter := dc.counter + (walk s (some e) (dc.counts.drop (insertidx dc s (some e)))).cnt,
      events := dc.events + 1 } : DeviceCounter) = _
  rw [hw]
  simp [sdInsertAll, sdRemoveAll_nil]

/-- C9 amended, witness: the out-of-window event `(105, 110)` on a fresh
`[0, 100]` counter only bumps the event total. -/
theorem C9_frame_witness :
    countEventInt (mkCounter 0 100) 105 (some 110) =
      { mkCounter 0 100 with events := (mkCounter 0 100).events + 1 } :=
  C9_frame (mkCounter 0 100) 105 110 (Inv_mkCounter (by norm_num)) (by norm_num)
    (Or.inr (by decide)) (by decide)

end MDS

namespace MDS

/-- C10: on a fresh counter over `[a, b]` with `a < b`, a zero-width closed
event `(t, t)` strictly inside the window takes the strictly-inside branch:
the partition becomes `[a,t]` with count 0, the degenerate `[t,t]` with
count 1 and `[t,b]` with count 0 — the dimension grows from 1 to 3, so it is
not a no-op on the partition — yet `average()` still returns 0 because the
incremented slice has width 0. -/
theorem C10_zero_width (a b t : ℤ) (h1 : a < t) (h2 : t < b) :
    dimension (mkCounter a b) = 1 ∧
    (countEventInt (mkCounter a b) t (some t)).counts =
      [(((a, t) : Iv), 0), (((t, t) : Iv), 1), (((t, b) : Iv), 0)] ∧
    dimension (countEventInt (mkCounter a b) t (some t)) = 3 ∧
    average (countEventInt (mkCounter a b) t (some t)) = .val 0 := by
  have hc : (mkCounter a b).counts = [(((a, b) : Iv), 0)] := by
    show [(mkIv a b, 0)] = _
    rw [mkIv_of_le (by omega : a ≤ b)]
  have hidx : insertidx (mkCounter a b) t (some t) = 0 := by
    show bisectRight (mkCounter a b).counts (mkIv t (probeEnd (mkCounter a b) (some t))) - 1 = 0
    rw [hc]
    show List.countP (fun it => kle it.1 (mkIv t (probeEnd (mkCounter a b) (some t))))
      [(((a, b) : Iv), 0)] - 1 = 0
    rw [List.countP_cons, List.countP_nil]
    cases h : kle ((a, b) : Iv) (mkIv t (probeEnd (mkCounter a b) (some t))) <;> simp [h]
  have hstep : walkStep t (some t) ((((a, b) : Iv)), 0) =
      ⟨[((a, b) : Iv)], [(((a, t) : Iv), 0), (((t, t) : Iv), 1), (((t, b) : Iv), 0)], 2, 1⟩ := by
    simp only [walkStep, stepClosed]
    split_ifs with hh1 hh2 hh3 hh4
    · exfalso; omega
    · exfalso; omega
    · exfalso; omega
    · rw [mkIv_of_le (by omega : a ≤ t), mkIv_of_le (le_refl t), mkIv_of_le (by omega : t ≤ b)]
    · exfalso; omega
  have hw : walk t (some t) [(((a, b) : Iv), 0)] =
      ⟨[((a, b) : Iv)], [(((a, t) : Iv), 0), (((t, t) : Iv), 1), (((t, b) : Iv), 0)], 2, 1⟩ := by
    rw [walk, if_pos (by simp [contCond]; omega), hstep]
    rfl
  have hrem : sdRemoveAll [((a, b) : Iv)] [(((a, b) : Iv), 0)] = [] := by
    simp [sdRemoveAll]
  have hsort3 : SortedE [(((a, t) : Iv), 0), (((t, t) : Iv), 1), (((t, b) : Iv), 0)] := by
    simp [SortedE, List.pairwise_cons, klt_iff]
    omega
  have htoAdd : sdInsertAll [(((a, t) : Iv), 0), (((t, t) : Iv), 1), (((t, b) : Iv), 0)] [] =
      [(((a, t) : Iv), 0), (((t, t) : Iv), 1), (((t, b) : Iv), 0)] :=
    sdInsertAll_sorted_nil _ hsort3
  have hcounts : (countEventInt (mkCounter a b) t (some t)).counts =
      [(((a, t) : Iv), 0), (((t, t) : Iv), 1), (((t, b) : Iv), 0)] := by
    show sdInsertAll
        (sdInsertAll (walk t (some t)
          ((mkCounter a b).counts.drop (insertidx (mkCounter a b) t (some t)))).add [])
        (sdRemoveAll (walk t (some t)
          ((mkCounter a b).counts.drop (insertidx (mkCounter a b) t (some t)))).rem
          (mkCounter a b).counts) = _
    rw [hidx, hc, List.drop_zero, hw]
    show sdInsertAll (sdInsertAll [(((a, t) : Iv), 0), (((t, t) : Iv), 1), (((t, b) : Iv), 0)] [])
        (sdRemoveAll [((a, b) : Iv)] [(((a, b) : Iv), 0)]) = _
    rw [htoAdd, hrem, htoAdd]
  have hdel : delta (countEventInt (mkCounter a b) t (some t)) = b - a := by
    show (mkIv a b).2 - (mkIv a b).1 = b - a
    rw [mkIv_of_le (by omega : a ≤ b)]
  have hsig : sigma (countEventInt (mkCounter a b) t (some t)) = 0 := by
    show ((countEventInt (mkCounter a b) t (some t)).counts.map
      (fun it => (it.2 : ℤ) * (it.1.2 - it.1.1))).sum = 0
    rw [hcounts]
    simp
  have havg : average (countEventInt (mkCounter a b) t (some t)) = .val 0 := by
    simp only [average]
    rw [if_neg (by rw [hdel]; omega), hsig]
    simp
  exact ⟨by simp [dimension, hc], hcounts, by simp [dimension, hcounts], havg⟩

/-- C10, witness: the zero-width event `(42, 42)` on a fresh `[0, 100]`
counter. -/
theorem C10_zero_width_witness :
    dimension (mkCounter 0 100) = 1 ∧
    (countEventInt (mkCounter 0 100) 42 (some 42)).counts =
      [(((0, 42) : Iv), 0), (((42, 42) : Iv), 1), (((42, 100) : Iv), 0)] ∧
    dimension (countEventInt (mkCounter 0 100) 42 (some 42)) = 3 ∧
    average (countEventInt (mkCounter 0 100) 42 (some 42)) = .val 0 :=
  C10_zero_width 0 100 42 (by norm_num) (by norm_num)

end MDS

namespace MDS

/-- On a degenerate single-point partition, one `count_event` walk either
touches nothing or increments the lone zero-width interval. -/
theorem deg_walk (a : ℤ) (c : ℕ) (s : ℤ) (eo : Option ℤ) :
    walk s eo [(((a, a) : Iv), c)] = ⟨[], [], 0, 0⟩ ∨
    walk s eo [(((a, a) : Iv), c)] = ⟨[], [(((a, a) : Iv), c + 1)], 0, 1⟩ := by
  rw [walk]
  by_cases hc1 : contCond eo (((a, a) : Iv), c)
  · rw [if_pos hc1]
    rcases eo with _ | e
    · have hstep : walkStep s none ((((a, a) : Iv)), c) = ⟨[], [], 0, 0⟩ ∨
          walkStep s none ((((a, a) : Iv)), c) = ⟨[], [(((a, a) : Iv), c + 1)], 0, 1⟩ := by
        simp only [walkStep, stepOpen]
        split_ifs with b1 b2
        · right; rw [mkIv_of_le (le_refl a)]
        · exfalso; omega
        · left; rfl
      rcases hstep with h | h
      · rw [h]; left; rfl
      · rw [h]; right; rfl
    · have hae : a < e := by simpa [contCond] using hc1
      have hstep : walkStep s (some e) ((((a, a) : Iv)), c) = ⟨[], [], 0, 0⟩ ∨
          walkStep s (some e) ((((a, a) : Iv)), c) = ⟨[], [(((a, a) : Iv), c + 1)], 0, 1⟩ := by
        simp only [walkStep, stepClosed]
        split_ifs with b1 b2 b3 b4
        · right; rw [mkIv_of_le (le_refl a)]
        · exfalso; omega
        · exfalso; omega
        · exfalso; omega
        · left; rfl
      rcases hstep with h | h
      · rw [h]; left; rfl
      · rw [h]; right; rfl
  · rw [if_neg hc1]
    left; rfl

/-- `count_event` on a degenerate single-point partition keeps the partition
a single point, at most incrementing its count. -/
theorem deg_counts (dc : DeviceCounter) (a : ℤ) (c : ℕ) (s : ℤ) (eo : Option ℤ)
    (h : dc.counts = [(((a, a) : Iv), c)]) :
    (countEventInt dc s eo).counts = [(((a, a) : Iv), c)] ∨
    (countEventInt dc s eo).counts = [(((a, a) : Iv), c + 1)] := by
  have hidx : insertidx dc s eo = 0 := by
    show bisectRight dc.counts (mkIv s (probeEnd dc eo)) - 1 = 0
    rw [h]
    show List.countP (fun it => kle it.1 (mkIv s (probeEnd dc eo))) [(((a, a) : Iv), c)] - 1 = 0
    rw [List.countP_cons, List.countP_nil]
    cases h2 : kle ((a, a) : Iv) (mkIv s (probeEnd dc eo)) <;> simp [h2]
  have hshape : (countEventInt dc s eo).counts =
      sdInsertAll (sdInsertAll (walk s eo [(((a, a) : Iv), c)]).add [])
        (sdRemoveAll (walk s eo [(((a, a) : Iv), c)]).rem [(((a, a) : Iv), c)]) := by
    show sdInsertAll (sdInsertAll (walk s eo (dc.counts.drop (insertidx dc s eo))).add [])
        (sdRemoveAll (walk s eo (dc.counts.drop (insertidx dc s eo))).rem dc.counts) = _
    rw [hidx, h, List.drop_zero]
  rcases deg_walk a c s eo with hw | hw
  · left
    rw [hshape, hw]
    show sdInsertAll (sdInsertAll [] []) (sdRemoveAll [] [(((a, a) : Iv), c)]) = _
    rw [sdRemoveAll_nil]
    rfl
  · right
    rw [hshape, hw]
    show sdInsertAll (sdInsertAll [(((a, a) : Iv), c + 1)] [])
      (sdRemoveAll [] [(((a, a) : Iv), c)]) = _
    rw [sdRemoveAll_nil]
    show sdInsert ((a, a) : Iv) (c + 1) [(((a, a) : Iv), c)] = _
    rw [sdInsert, if_neg (by simp [klt_irrefl]), if_pos rfl]

/-- Folding any event list into a degenerate single-point counter keeps the
partition a single point. -/
theorem deg_fold (a : ℤ) (evs : List (ℤ × Option ℤ)) :
    ∀ (dc : DeviceCounter) (c : ℕ), dc.counts = [(((a, a) : Iv), c)] →
      ∃ c2, (foldEvents dc evs).counts = [(((a, a) : Iv), c2)] := by
  induction evs with
  | nil => intro dc c h; exact ⟨c, h⟩
  | cons ev rest ih =>
    intro dc c h
    show ∃ c2, (foldEvents (countEventInt dc ev.1 ev.2) rest).counts = [(((a, a) : Iv), c2)]
    rcases deg_counts dc a c ev.1 ev.2 h with h2 | h2
    · exact ih _ _ h2
    · exact ih _ _ h2

/-- C5 amended: for a counter constructed with `T0 = T1 = a`, `average()`
does not raise a `DegenerateRangeError` — no such guard exists in the source
— it returns numpy's `0/0 = nan`; meanwhile `count_event` does still succeed
on every event and the partition stays the single point interval, and
`average()` stays `nan` afterwards. -/
theorem C5_amended (a : ℤ) (evs : List (ℤ × Option ℤ)) :
    average (mkCounter a a) = AvgResult.nan ∧
    (∃ c, (foldEvents (mkCounter a a) evs).counts = [(((a, a) : Iv), c)]) ∧
    dimension (foldEvents (mkCounter a a) evs) = 1 ∧
    average (foldEvents (mkCounter a a) evs) = AvgResult.nan := by
  have h0 : (mkCounter a a).counts = [(((a, a) : Iv), 0)] := by
    show [(mkIv a a, 0)] = _
    rw [mkIv_of_le (le_refl a)]
  obtain ⟨c, hcts⟩ := deg_fold a evs (mkCounter a a) 0 h0
  have hd0 : delta (mkCounter a a) = 0 := by
    show (mkIv a a).2 - (mkIv a a).1 = 0
    rw [mkIv_of_le (le_refl a)]
    omega
  have hs0 : sigma (mkCounter a a) = 0 := by
    show ((mkCounter a a).counts.map (fun it => (it.2 : ℤ) * (it.1.2 - it.1.1))).sum = 0
    rw [h0]
    simp
  have hdf : delta (foldEvents (mkCounter a a) evs) = 0 := by
    show (mkIv (foldEvents (mkCounter a a) evs).tstart
        (foldEvents (mkCounter a a) evs).tend).2 -
      (mkIv (foldEvents (mkCounter a a) evs).tstart
        (foldEvents (mkCounter a a) evs).tend).1 = 0
    rw [(foldEvents_tstart (mkCounter a a) evs).1, (foldEvents_tstart (mkCounter a a) evs).2]
    show (mkIv a a).2 - (mkIv a a).1 = 0
    rw [mkIv_of_le (le_refl a)]
    omega
  have hsf : sigma (foldEvents (mkCounter a a) evs) = 0 := by
    show ((foldEvents (mkCounter a a) evs).counts.map
      (fun it => (it.2 : ℤ) * (it.1.2 - it.1.1))).sum = 0
    rw [hcts]
    simp
  refine ⟨?_, ⟨c, hcts⟩, by simp [dimension, hcts], ?_⟩
  · simp only [average]
    rw [if_pos hd0, if_pos hs0]
  · simp only [average]
    rw [if_pos hdf, if_pos hsf]

end MDS
